import Mathlib

/-!
Verification of the segregated-free-list allocator in `malloclab-handout/mm.c`.

The embedding models the heap as the physical chain of blocks strictly between
the prologue and the epilogue, plus the `LIST_NUM = 19` segregated free lists.
Each block keeps its header fields (`hsize`, `halloc`) and its footer fields
(`fsize`, `falloc`) separately, exactly as the C keeps two boundary tags per
block, so that boundary-tag symmetry is a provable property rather than a
modelling artifact.  A block's physical extent is identified with its header
size (`FTRP` in the C locates the footer from the header size, so every footer
write in the C lands at the position this identification gives).  Blocks are
named by an abstract identifier `bid` (an address surrogate); the intrusive
`prev`/`next` link fields of a free block are represented by the order of the
per-class id lists, which is how the C maintains them (`add_free_list` pushes
at the head, `delete_free_list` splices one element out).

`mem_sbrk` is modelled by a boolean oracle `sbrkOk` saying whether the OS
grants the extension.  Size arithmetic uses `Nat`; the one place where
`size_t` wrap-around is semantically load-bearing for the claims —
`calloc`'s multiplication `nmemb * size` — is modelled with an explicit
`% 2 ^ 64`.  `place` is only ever called with `csize ≥ asize` (guaranteed by
`find_fit` / `extend_heap`), where C's unsigned `csize - asize` agrees with
truncated `Nat` subtraction.
-/

/-- Word size in bytes (`WSIZE` in mm.c). -/
def WSIZE : Nat := 4

/-- Double word size in bytes (`DSIZE` in mm.c). -/
def DSIZE : Nat := 8

/-- Heap extension increment in bytes (`CHUNKSIZE` in mm.c). -/
def CHUNKSIZE : Nat := 200

/-- Number of segregated free lists (`LIST_NUM` in mm.c). -/
def LIST_NUM : Nat := 19

/-- Minimum block size in bytes (`MIN_BLOCK_SIZE` in mm.c). -/
def MIN_BLOCK_SIZE : Nat := 24

/-- Modulus of `size_t` arithmetic (64-bit build). -/
def SIZE_T_MOD : Nat := 2 ^ 64

/-- The `ALIGN` macro: round up to the nearest multiple of 8
(`((p) + 7) & ~0x7`). -/
def align8 (p : Nat) : Nat := (p + 7) / 8 * 8

/-- The adjusted block size `asize` computed by `malloc` for a request of
`size` bytes: `MIN_BLOCK_SIZE` for small requests, else
`ALIGN(size + DSIZE)`. -/
def adjustSize (size : Nat) : Nat :=
  if size ≤ DSIZE then MIN_BLOCK_SIZE else align8 (size + DSIZE)

/-- Direct transcription of `get_seglist_no` from mm.c: the cascade of
`<=` tests mapping a block size to a segregated-list index.  Note that the
cascade jumps from index 2 (`asize <= 40`) to index 4 (`asize <= 56`);
index 3 is never produced. -/
def get_seglist_no (asize : Nat) : Nat :=
  if asize ≤ 24 then 0
  else if asize ≤ 32 then 1
  else if asize ≤ 40 then 2
  else if asize ≤ 56 then 4
  else if asize ≤ 72 then 5
  else if asize ≤ 88 then 6
  else if asize ≤ 104 then 7
  else if asize ≤ 120 then 8
  else if asize ≤ 240 then 9
  else if asize ≤ 480 then 10
  else if asize ≤ 960 then 11
  else if asize ≤ 1920 then 12
  else if asize ≤ 3840 then 13
  else if asize ≤ 7680 then 14
  else if asize ≤ 15360 then 15
  else if asize ≤ 30720 then 16
  else if asize ≤ 61440 then 17
  else 18

/-- One heap block: header fields (`hsize`, `halloc`, written through
`PUT(HDRP(bp), ...)`) and footer fields (`fsize`, `falloc`, written through
`PUT(FTRP(bp), ...)`) kept separately, plus the abstract block identifier
`bid` standing for the block's address. -/
structure Blk where
  bid : Nat
  hsize : Nat
  halloc : Bool
  fsize : Nat
  falloc : Bool
deriving DecidableEq, Repr

/-- The allocator state: the physical chain of blocks between prologue and
epilogue (both sentinels are permanently allocated and implicit: a missing
physical neighbour reads as allocated), the 19 segregated free lists of block
ids (`seg_list` in mm.c; head of each list = most recently inserted), and a
supply of fresh block identifiers. -/
structure Heap where
  blocks : List Blk
  seg : List (List Nat)
  nextId : Nat
deriving DecidableEq, Repr

/-- Read segregated list number `i` (`GET_SEGI(seg_list, i)` walked to a
Lean list). -/
def segGet (h : Heap) (i : Nat) : List Nat := h.seg.getD i []

/-- Write segregated list number `i` (`PUT_SEGI(seg_list, i, ...)`). -/
def segSet (h : Heap) (i : Nat) (l : List Nat) : Heap :=
  { h with seg := h.seg.set i l }

/-- Find the block with identifier `id` in the physical chain. -/
def lookupBlk (h : Heap) (id : Nat) : Option Blk :=
  h.blocks.find? (fun b => b.bid = id)

/-- The header size of block `id` (`GET_SIZE(HDRP(bp))`); 0 if the id does
not name a block of the chain. -/
def sizeOfId (h : Heap) (id : Nat) : Nat :=
  match lookupBlk h id with
  | some b => b.hsize
  | none => 0

/-- Payload capacity of an allocated block: its size minus the header and
footer words.  Modelled from the spec: the spec's `old_payload_size` for a
block of total size `s` is `s - DSIZE` (one `WSIZE` header plus one `WSIZE`
footer); mm.c has no such function, `realloc` reads the raw block size. -/
def payloadSizeOf (h : Heap) (id : Nat) : Nat := sizeOfId h id - DSIZE

/-- Transcription of `delete_free_list`: compute the class from the block's
current size and splice the block out of that list (the C splices via the
block's own `prev`/`next` links and fixes the list head when the block is
first; on the list representation this is removal of the unique
occurrence). -/
def delete_free_list (h : Heap) (id : Nat) : Heap :=
  let no := get_seglist_no (sizeOfId h id)
  segSet h no ((segGet h no).erase id)

/-- Overwrite the (unique) block named `id` with `nb` in a chain. -/
def setBlk (id : Nat) (nb : Blk) : List Blk → List Blk
  | [] => []
  | x :: xs => if x.bid = id then nb :: xs else x :: setBlk id nb xs

/-- Transcription of `coalesce`: read the previous physical neighbour's
footer allocation bit and the next physical neighbour's header allocation
bit (a missing neighbour is the allocated prologue/epilogue sentinel), then
the four merge cases of mm.c.  `delete_free_list` is called on a neighbour
before its boundary tags are rewritten, exactly as in the C, so the class is
computed from the neighbour's old size.  The merged block keeps the
surviving block's identifier (`bp`, resp. `PREV_BLKP(bp)`), and its header
and footer are both written as `PACK(size, 0)`; the case where both
neighbours are free sums `GET_SIZE(HDRP(bp))`, `GET_SIZE(HDRP(PREV))` and
`GET_SIZE(FTRP(NEXT))` — the next block's footer size.  Returns the heap
and the surviving block pointer.  The case split is arranged by the
existence of the two physical neighbours first (a missing neighbour is the
allocated sentinel, so its branch is the corresponding `prev_alloc` /
`next_alloc` = 1 case of the C), then by their allocation bits, exactly
covering the C's four cases. -/
def coalesce (h : Heap) (id : Nat) : Heap × Nat :=
  match h.blocks.dropWhile (fun x => x.bid ≠ id) with
  | [] => (h, id)
  | b :: post =>
    let pre := h.blocks.takeWhile (fun x => x.bid ≠ id)
    match pre.getLast?, post.head? with
    | none, none => (h, id)
    | none, some n =>
      if n.halloc then (h, id)
      else
        let sz := b.hsize + n.hsize
        let h1 := delete_free_list h n.bid
        ({ h1 with blocks := pre ++ ⟨b.bid, sz, false, sz, false⟩ :: post.tail }, b.bid)
    | some p, none =>
      if p.falloc then (h, id)
      else
        let sz := b.hsize + p.hsize
        let h1 := delete_free_list h p.bid
        ({ h1 with blocks := pre.dropLast ++ ⟨p.bid, sz, false, sz, false⟩ :: post }, p.bid)
    | some p, some n =>
      if p.falloc then
        if n.halloc then (h, id)
        else
          let sz := b.hsize + n.hsize
          let h1 := delete_free_list h n.bid
          ({ h1 with blocks := pre ++ ⟨b.bid, sz, false, sz, false⟩ :: post.tail }, b.bid)
      else
        if n.halloc then
          let sz := b.hsize + p.hsize
          let h1 := delete_free_list h p.bid
          ({ h1 with blocks := pre.dropLast ++ ⟨p.bid, sz, false, sz, false⟩ :: post }, p.bid)
        else
          let sz := b.hsize + (p.hsize + n.fsize)
          let h1 := delete_free_list h p.bid
          let h2 := delete_free_list h1 n.bid
          ({ h2 with blocks := pre.dropLast ++ ⟨p.bid, sz, false, sz, false⟩ :: post.tail }, p.bid)

/-- The final step of `add_free_list`: push the block at the head of the
list whose index is computed from the block's (current, post-coalesce)
size. -/
def insertSeg (h : Heap) (id : Nat) : Heap :=
  let no := get_seglist_no (sizeOfId h id)
  segSet h no (id :: segGet h no)

/-- Transcription of `add_free_list`: coalesce first, then compute the class
from the merged block's size and push at the head of that list (LIFO).
Returns the heap and the (possibly moved) block pointer. -/
def add_free_list (h : Heap) (id : Nat) : Heap × Nat :=
  let (h1, id1) := coalesce h id
  (insertSeg h1 id1, id1)

/-- Inner loop of `find_fit` over one free list: the loop runs while
`bp != NULL && GET_SIZE(HDRP(bp)) > 0` and returns the first `bp` with
`asize <= GET_SIZE(HDRP(bp))`. -/
def find_fit_list (h : Heap) (asize : Nat) : List Nat → Option Nat
  | [] => none
  | id :: rest =>
    if 0 < sizeOfId h id then
      if asize ≤ sizeOfId h id then some id
      else find_fit_list h asize rest
    else none

/-- Outer loop of `find_fit`: classes `i = seglist_no, ..., LIST_NUM - 1`
in increasing order; `fuel` is the number of classes still to scan. -/
def find_fit_from (h : Heap) (asize : Nat) (i : Nat) : Nat → Option Nat
  | 0 => none
  | fuel + 1 =>
    match find_fit_list h asize (segGet h i) with
    | some id => some id
    | none => find_fit_from h asize (i + 1) fuel

/-- Transcription of `find_fit`: start at `get_seglist_no(asize)` and scan
classes upward; within each class scan the list from its head. -/
def find_fit (h : Heap) (asize : Nat) : Option Nat :=
  find_fit_from h asize (get_seglist_no asize) (LIST_NUM - get_seglist_no asize)

/-- Replace the (unique) block named `id` with the two blocks `b1 ++ b2`
produced by a split. -/
def splitBlk (id : Nat) (b1 b2 : Blk) : List Blk → List Blk
  | [] => []
  | x :: xs => if x.bid = id then b1 :: b2 :: xs else x :: splitBlk id b1 b2 xs

/-- Transcription of `place`: remove the chosen free block from its list;
if the remainder would be at least `MIN_BLOCK_SIZE`, split into an allocated
head of size `asize` and a free remainder that is handed to
`add_free_list`, else allocate the whole block.  (The C compares the
`size_t` difference `csize - asize`; `place` is only called with
`csize ≥ asize`, where this agrees with `Nat` subtraction.)  The remainder
is a new block (`NEXT_BLKP(bp)`), named here by a fresh identifier. -/
def place (h : Heap) (id : Nat) (asize : Nat) : Heap :=
  let csize := sizeOfId h id
  let h1 := delete_free_list h id
  if MIN_BLOCK_SIZE ≤ csize - asize then
    let b1 : Blk := ⟨id, asize, true, asize, true⟩
    let b2 : Blk := ⟨h1.nextId, csize - asize, false, csize - asize, false⟩
    let h2 : Heap := { h1 with blocks := splitBlk id b1 b2 h1.blocks,
                               nextId := h1.nextId + 1 }
    (add_free_list h2 b2.bid).1
  else
    { h1 with blocks := setBlk id ⟨id, csize, true, csize, true⟩ h1.blocks }

/-- Transcription of `extend_heap`: if `mem_sbrk` declines (`sbrkOk =
false`) return `NULL` with the heap untouched; otherwise round `words` up
to an even count, append the new region as one free block (its header
overwrites the old epilogue; a new epilogue is written after it, implicit
here), and hand it to `add_free_list`. -/
def extend_heap (h : Heap) (words : Nat) (sbrkOk : Bool) : Option Nat × Heap :=
  if sbrkOk then
    let size := (if words % 2 = 1 then words + 1 else words) * WSIZE
    let nb : Blk := ⟨h.nextId, size, false, size, false⟩
    let h1 : Heap := { h with blocks := h.blocks ++ [nb], nextId := h.nextId + 1 }
    let r := add_free_list h1 nb.bid
    (some r.2, r.1)
  else (none, h)

/-- Transcription of `malloc` (for an initialized allocator, `heap_start ≠
0`): zero requests return `NULL` at once; otherwise adjust the size, search
the free lists, place on a hit, and on a miss extend the heap by
`max(asize, CHUNKSIZE)` bytes and place into the new block; if the
extension fails the call returns `NULL` with no state change. -/
def malloc (h : Heap) (size : Nat) (sbrkOk : Bool) : Option Nat × Heap :=
  if size = 0 then (none, h)
  else
    let asize := adjustSize size
    match find_fit h asize with
    | some bp => (some bp, place h bp asize)
    | none =>
      let extendsize := max asize CHUNKSIZE
      match extend_heap h (extendsize / WSIZE) sbrkOk with
      | (none, _) => (none, h)
      | (some bp, h1) => (some bp, place h1 bp asize)

/-- Transcription of `free`: `NULL` is a no-op; otherwise rewrite the
block's header and footer as `PACK(size, 0)` with `size` read from the
header, and hand the block to `add_free_list`.  An identifier that names no
block of the chain is undefined behaviour in the C (it would read a garbage
header); modelled as a no-op. -/
def free (h : Heap) (ptr : Option Nat) : Heap :=
  match ptr with
  | none => h
  | some id =>
    match lookupBlk h id with
    | none => h
    | some b =>
      let h1 : Heap := { h with blocks := setBlk id ⟨id, b.hsize, false, b.hsize, false⟩ h.blocks }
      (add_free_list h1 id).1

/-- Transcription of `realloc`.  The middle component of the result is the
number of bytes `memcpy` copies: `MIN(GET_SIZE(HDRP(oldptr)), size)` — the
old *block* size (payload plus the 8 bytes of header and footer), read
after the inner `malloc`. -/
def realloc (h : Heap) (oldptr : Option Nat) (size : Nat) (sbrkOk : Bool) :
    Option Nat × Nat × Heap :=
  if size = 0 then (none, 0, free h oldptr)
  else
    match oldptr with
    | none =>
      let r := malloc h size sbrkOk
      (r.1, 0, r.2)
    | some old =>
      let r := malloc h size sbrkOk
      match r.1 with
      | none => (none, 0, r.2)
      | some newp =>
        let copysize := min (sizeOfId r.2 old) size
        (some newp, copysize, free r.2 (some old))

/-- Transcription of `calloc`: `size_t memsize = nmemb * size` — a wrapping
`size_t` product with no overflow check — then `malloc(memsize)` and
`memset(ptr, 0, memsize)`.  The middle component of the result is the
number of bytes zero-filled by the `memset`. -/
def calloc (h : Heap) (nmemb : Nat) (size : Nat) (sbrkOk : Bool) :
    Option Nat × Nat × Heap :=
  let memsize := nmemb * size % SIZE_T_MOD
  let r := malloc h memsize sbrkOk
  (r.1, memsize, r.2)

/-- Transcription of the successful path of `mm_init`: empty segregated
lists, prologue and epilogue written (implicit sentinels here), then
`extend_heap(CHUNKSIZE / WSIZE)`. -/
def mm_init : Heap :=
  let h0 : Heap := { blocks := [], seg := List.replicate LIST_NUM [], nextId := 0 }
  (extend_heap h0 (CHUNKSIZE / WSIZE) true).2

/-- Loop condition of the free-list walk in `check_free_list`:
`bp != NULL && GET_SIZE(HDRP(bp)) > 0`. -/
def cflCond (h : Heap) (bp : Option Nat) : Bool :=
  match bp with
  | none => false
  | some id => decide (0 < sizeOfId h id)

/-- The inner `for` loop of `check_free_list` over one segregated list,
with explicit fuel.  The loop's update expression in mm.c is
`PUT_NEXTP(bp, GET_NEXTP(bp))`: it stores `bp`'s next link back into `bp`'s
next link — a self-assignment that changes no memory value — and never
advances `bp` itself, so each iteration re-enters with the same `bp` and
the same heap.  Returns `some bp` if the loop exits within `fuel`
iterations, `none` if the fuel is exhausted. -/
def check_free_list_walk (h : Heap) (bp : Option Nat) : Nat → Option (Option Nat)
  | 0 => none
  | fuel + 1 =>
    if cflCond h bp then check_free_list_walk h bp fuel
    else some bp

/-- Boundary-tag symmetry (spec §8): every block's footer repeats its
header's size and allocation bit. -/
def tagSym (h : Heap) : Prop :=
  ∀ b ∈ h.blocks, b.fsize = b.hsize ∧ b.falloc = b.halloc

/-- Coalescing completeness (spec §8): no two physically adjacent blocks of
the chain are both free. -/
def noAdjacentFree (h : Heap) : Prop :=
  List.Chain' (fun a b => a.halloc = true ∨ b.halloc = true) h.blocks

/-- Every block's size is at least `MIN_BLOCK_SIZE` and 8-byte aligned. -/
def sizesOk (h : Heap) : Prop :=
  ∀ b ∈ h.blocks, MIN_BLOCK_SIZE ≤ b.hsize ∧ b.hsize % 8 = 0

/-- Block identifiers are pairwise distinct along the chain. -/
def bidsNodup (h : Heap) : Prop := (h.blocks.map Blk.bid).Nodup

/-- Every chain block's identifier is below the fresh-id supply. -/
def idsBound (h : Heap) : Prop := ∀ b ∈ h.blocks, b.bid < h.nextId

/-- No identifier occurs twice across the segregated lists. -/
def segNodup (h : Heap) : Prop := h.seg.flatten.Nodup

/-- Every listed identifier names a free chain block whose class is the
list it sits in (spec §8 size-class correctness, soundness half). -/
def segSound (h : Heap) : Prop :=
  ∀ i < LIST_NUM, ∀ id ∈ segGet h i,
    ∃ b ∈ h.blocks, b.bid = id ∧ b.halloc = false ∧ get_seglist_no b.hsize = i

/-- Every free chain block is listed in the class of its current size
(spec §8 size-class correctness, completeness half). -/
def segComplete (h : Heap) : Prop :=
  ∀ b ∈ h.blocks, b.halloc = false → b.bid ∈ segGet h (get_seglist_no b.hsize)

/-- The allocator's well-formedness invariant: the conjunction of all the
structural invariants of spec §3/§8. -/
def WF (h : Heap) : Prop :=
  h.seg.length = LIST_NUM ∧ tagSym h ∧ sizesOk h ∧ noAdjacentFree h ∧
  bidsNodup h ∧ idsBound h ∧ segNodup h ∧ segSound h ∧ segComplete h

/-- A valid `free`/`realloc` pointer argument: `NULL` or a currently
allocated block of the chain. -/
def validPtr (h : Heap) (p : Option Nat) : Prop :=
  p = none ∨ ∃ b ∈ h.blocks, some b.bid = p ∧ b.halloc = true

/-- The heap states reachable from a fresh `mm_init` through the public
operations, with pointer arguments used as the C contract demands (freeing
only live allocated blocks). -/
inductive Reach : Heap → Prop where
  | init : Reach mm_init
  | malloc_step (h : Heap) (n : Nat) (g : Bool) : Reach h → Reach (malloc h n g).2
  | free_step (h : Heap) (p : Option Nat) : Reach h → validPtr h p → Reach (free h p)
  | realloc_step (h : Heap) (p : Option Nat) (n : Nat) (g : Bool) :
      Reach h → validPtr h p → Reach (realloc h p n g).2.2
  | calloc_step (h : Heap) (c n : Nat) (g : Bool) : Reach h → Reach (calloc h c n g).2.2

/-- The first-fit search the spec describes, as one flat scan: concatenate
the lists of classes `get_seglist_no asize, ..., 18` in increasing class
order (each list from its head) and take the first block whose size fits. -/
def specFindFit (h : Heap) (asize : Nat) : Option Nat :=
  (((List.range (LIST_NUM - get_seglist_no asize)).map
      (fun k => segGet h (get_seglist_no asize + k))).flatten).find?
    (fun id => asize ≤ sizeOfId h id)


/-- The state passed to `add_free_list`: the block named `id` has just been
made free (by `free`, by a split in `place`, or by `extend_heap`) and is not
yet on any segregated list; all other invariants hold, and the only
possibly-free-adjacent pairs of the chain involve `id` (witnessed by a
decomposition whose outer parts each satisfy the no-adjacent-free chain
condition). -/
def PreAdd (h : Heap) (id : Nat) : Prop :=
  h.seg.length = LIST_NUM ∧ tagSym h ∧ sizesOk h ∧ bidsNodup h ∧ idsBound h ∧
  segNodup h ∧ segSound h ∧
  (∀ b ∈ h.blocks, b.halloc = false → b.bid ≠ id → b.bid ∈ segGet h (get_seglist_no b.hsize)) ∧
  id ∉ h.seg.flatten ∧
  (∃ l b r, h.blocks = l ++ b :: r ∧ b.bid = id ∧ b.halloc = false ∧
    List.Chain' (fun a c => a.halloc = true ∨ c.halloc = true) l ∧
    List.Chain' (fun a c => a.halloc = true ∨ c.halloc = true) r)

/-- The state just before the head-insertion step of `add_free_list`
(after `coalesce`): like `PreAdd`, but the whole chain already satisfies
no-adjacent-free. -/
def PreInsert (h : Heap) (id : Nat) : Prop :=
  h.seg.length = LIST_NUM ∧ tagSym h ∧ sizesOk h ∧ noAdjacentFree h ∧
  bidsNodup h ∧ idsBound h ∧ segNodup h ∧ segSound h ∧
  (∀ b ∈ h.blocks, b.halloc = false → b.bid ≠ id → b.bid ∈ segGet h (get_seglist_no b.hsize)) ∧
  id ∉ h.seg.flatten ∧
  (∃ b ∈ h.blocks, b.bid = id ∧ b.halloc = false)

/-- A small concrete well-formed heap used as a test vector: four allocated
24-byte blocks, all free lists empty. -/
def hAlloc4 : Heap :=
  { blocks := [⟨0, 24, true, 24, true⟩, ⟨1, 24, true, 24, true⟩,
               ⟨2, 24, true, 24, true⟩, ⟨3, 24, true, 24, true⟩],
    seg := List.replicate 19 [], nextId := 4 }

/-- A concrete well-formed heap with a single allocated 24-byte block
(payload capacity 16 bytes). -/
def hOneAlloc : Heap :=
  { blocks := [⟨0, 24, true, 24, true⟩], seg := List.replicate 19 [], nextId := 1 }

instance (h : Heap) : Decidable (tagSym h) :=
  inferInstanceAs (Decidable (∀ b ∈ h.blocks, b.fsize = b.hsize ∧ b.falloc = b.halloc))

def chain'B {α : Type} (p : α → α → Bool) : List α → Bool
  | [] => true
  | [_] => true
  | a :: b :: l => p a b && chain'B p (b :: l)

theorem chain'B_iff {α : Type} (p : α → α → Bool) :
    ∀ l : List α, chain'B p l = true ↔ List.Chain' (fun a b => p a b = true) l
  | [] => by simp [chain'B]
  | [a] => by simp [chain'B]
  | a :: b :: l => by
    rw [List.chain'_cons]
    simp only [chain'B, Bool.and_eq_true]
    rw [chain'B_iff p (b :: l)]

instance (h : Heap) : Decidable (noAdjacentFree h) :=
  decidable_of_iff (chain'B (fun a b => a.halloc || b.halloc) h.blocks = true) (by
    rw [chain'B_iff]
    unfold noAdjacentFree
    constructor
    · exact fun hc => hc.imp fun a b hab => by simpa using hab
    · exact fun hc => hc.imp fun a b hab => by simpa using hab)

instance (h : Heap) : Decidable (sizesOk h) :=
  inferInstanceAs (Decidable (∀ b ∈ h.blocks, MIN_BLOCK_SIZE ≤ b.hsize ∧ b.hsize % 8 = 0))

instance (h : Heap) : Decidable (bidsNodup h) :=
  inferInstanceAs (Decidable (h.blocks.map Blk.bid).Nodup)

instance (h : Heap) : Decidable (idsBound h) :=
  inferInstanceAs (Decidable (∀ b ∈ h.blocks, b.bid < h.nextId))

instance (h : Heap) : Decidable (segNodup h) :=
  inferInstanceAs (Decidable h.seg.flatten.Nodup)

instance (h : Heap) : Decidable (segSound h) :=
  inferInstanceAs (Decidable (∀ i < LIST_NUM, ∀ id ∈ segGet h i,
    ∃ b ∈ h.blocks, b.bid = id ∧ b.halloc = false ∧ get_seglist_no b.hsize = i))

instance (h : Heap) : Decidable (segComplete h) :=
  inferInstanceAs (Decidable (∀ b ∈ h.blocks, b.halloc = false →
    b.bid ∈ segGet h (get_seglist_no b.hsize)))

instance (h : Heap) : Decidable (WF h) :=
  inferInstanceAs (Decidable (_ ∧ _ ∧ _ ∧ _ ∧ _ ∧ _ ∧ _ ∧ _ ∧ _))

theorem segSet_blocks (h : Heap) (i : Nat) (l : List Nat) :
    (segSet h i l).blocks = h.blocks := rfl

theorem segSet_nextId (h : Heap) (i : Nat) (l : List Nat) :
    (segSet h i l).nextId = h.nextId := rfl

theorem delete_free_list_blocks (h : Heap) (id : Nat) :
    (delete_free_list h id).blocks = h.blocks := rfl

theorem delete_free_list_nextId (h : Heap) (id : Nat) :
    (delete_free_list h id).nextId = h.nextId := rfl

theorem insertSeg_blocks (h : Heap) (id : Nat) :
    (insertSeg h id).blocks = h.blocks := rfl

theorem insertSeg_nextId (h : Heap) (id : Nat) :
    (insertSeg h id).nextId = h.nextId := rfl

/-- Characterization bundle for `get_seglist_no`: the index is always below
`LIST_NUM`, index 3 is never produced, and every size in 41..56 maps to
index 4. -/
theorem get_seglist_no_char (n : Nat) :
    get_seglist_no n < 19 ∧ get_seglist_no n ≠ 3 ∧ (41 ≤ n → n ≤ 56 → get_seglist_no n = 4) := by
  unfold get_seglist_no
  by_cases h1 : n ≤ 24
  · rw [if_pos h1]; exact ⟨by omega, by omega, by omega⟩
  rw [if_neg h1]
  by_cases h2 : n ≤ 32
  · rw [if_pos h2]; exact ⟨by omega, by omega, by omega⟩
  rw [if_neg h2]
  by_cases h3 : n ≤ 40
  · rw [if_pos h3]; exact ⟨by omega, by omega, by omega⟩
  rw [if_neg h3]
  by_cases h4 : n ≤ 56
  · rw [if_pos h4]; exact ⟨by omega, by omega, by omega⟩
  rw [if_neg h4]
  by_cases h5 : n ≤ 72
  · rw [if_pos h5]; exact ⟨by omega, by omega, by omega⟩
  rw [if_neg h5]
  by_cases h6 : n ≤ 88
  · rw [if_pos h6]; exact ⟨by omega, by omega, by omega⟩
  rw [if_neg h6]
  by_cases h7 : n ≤ 104
  · rw [if_pos h7]; exact ⟨by omega, by omega, by omega⟩
  rw [if_neg h7]
  by_cases h8 : n ≤ 120
  · rw [if_pos h8]; exact ⟨by omega, by omega, by omega⟩
  rw [if_neg h8]
  by_cases h9 : n ≤ 240
  · rw [if_pos h9]; exact ⟨by omega, by omega, by omega⟩
  rw [if_neg h9]
  by_cases h10 : n ≤ 480
  · rw [if_pos h10]; exact ⟨by omega, by omega, by omega⟩
  rw [if_neg h10]
  by_cases h11 : n ≤ 960
  · rw [if_pos h11]; exact ⟨by omega, by omega, by omega⟩
  rw [if_neg h11]
  by_cases h12 : n ≤ 1920
  · rw [if_pos h12]; exact ⟨by omega, by omega, by omega⟩
  rw [if_neg h12]
  by_cases h13 : n ≤ 3840
  · rw [if_pos h13]; exact ⟨by omega, by omega, by omega⟩
  rw [if_neg h13]
  by_cases h14 : n ≤ 7680
  · rw [if_pos h14]; exact ⟨by omega, by omega, by omega⟩
  rw [if_neg h14]
  by_cases h15 : n ≤ 15360
  · rw [if_pos h15]; exact ⟨by omega, by omega, by omega⟩
  rw [if_neg h15]
  by_cases h16 : n ≤ 30720
  · rw [if_pos h16]; exact ⟨by omega, by omega, by omega⟩
  rw [if_neg h16]
  by_cases h17 : n ≤ 61440
  · rw [if_pos h17]; exact ⟨by omega, by omega, by omega⟩
  rw [if_neg h17]
  exact ⟨by omega, by omega, by omega⟩

theorem get_seglist_no_lt (n : Nat) : get_seglist_no n < LIST_NUM :=
  (get_seglist_no_char n).1

theorem get_seglist_no_ne_three (n : Nat) : get_seglist_no n ≠ 3 :=
  (get_seglist_no_char n).2.1

theorem get_seglist_no_of_41_56 (n : Nat) (h1 : 41 ≤ n) (h2 : n ≤ 56) :
    get_seglist_no n = 4 :=
  (get_seglist_no_char n).2.2 h1 h2

theorem align8_mod (p : Nat) : align8 p % 8 = 0 := by
  unfold align8
  omega

theorem align8_ge (p : Nat) : p ≤ align8 p := by
  unfold align8
  omega

theorem adjustSize_ge (n : Nat) : MIN_BLOCK_SIZE ≤ adjustSize n := by
  unfold adjustSize MIN_BLOCK_SIZE DSIZE align8
  split <;> omega

theorem adjustSize_mod (n : Nat) : adjustSize n % 8 = 0 := by
  unfold adjustSize MIN_BLOCK_SIZE DSIZE align8
  split <;> omega

theorem takeWhile_middle {α : Type} (p : α → Bool) (b : α) (r : List α) :
    ∀ l : List α, (∀ x ∈ l, p x = true) → p b = false →
      (l ++ b :: r).takeWhile p = l ∧ (l ++ b :: r).dropWhile p = b :: r
  | [], _, hb => by simp [List.takeWhile_cons, List.dropWhile_cons, hb]
  | a :: l, hl, hb => by
    have ha : p a = true := hl a (by simp)
    have ih := takeWhile_middle p b r l (fun x hx => hl x (by simp [hx])) hb
    simp [List.takeWhile_cons, List.dropWhile_cons, ha, ih.1, ih.2]

theorem find?_middle {α : Type} (p : α → Bool) (b : α) (r : List α) :
    ∀ l : List α, (∀ x ∈ l, p x = false) → p b = true →
      (l ++ b :: r).find? p = some b
  | [], _, hb => by simp [List.find?_cons, hb]
  | a :: l, hl, hb => by
    have ha : p a = false := hl a (by simp)
    have ih := find?_middle p b r l (fun x hx => hl x (by simp [hx])) hb
    simp [List.find?_cons, ha, ih]

theorem getD_set_self {α : Type} (d x : α) :
    ∀ (l : List α) (i : Nat), i < l.length → (l.set i x).getD i d = x
  | [], i, h => absurd h (by simp)
  | _ :: _, 0, _ => rfl
  | a :: l, i + 1, h => by
    have := getD_set_self d x l i (by simpa using h)
    simpa using this

theorem getD_set_ne {α : Type} (d x : α) :
    ∀ (l : List α) (i j : Nat), j ≠ i → (l.set i x).getD j d = l.getD j d
  | [], _, _, _ => by simp
  | _ :: _, 0, 0, h => absurd rfl h
  | a :: l, 0, j + 1, _ => by simp
  | a :: l, i + 1, 0, _ => rfl
  | a :: l, i + 1, j + 1, h => by
    have := getD_set_ne d x l i j (fun he => h (by rw [he]))
    simpa using this

theorem mem_getD_flatten {α : Type} (x : α) :
    ∀ (L : List (List α)) (i : Nat), x ∈ L.getD i [] → x ∈ L.flatten
  | [], i, hx => by simp at hx
  | l :: L, 0, hx => by
    simp only [List.flatten_cons, List.mem_append]
    exact Or.inl hx
  | l :: L, i + 1, hx => by
    simp only [List.flatten_cons, List.mem_append]
    exact Or.inr (mem_getD_flatten x L i (by simpa using hx))

theorem flatten_nodup_unique {α : Type} (x : α) :
    ∀ (L : List (List α)), L.flatten.Nodup →
      ∀ i j, x ∈ L.getD i [] → x ∈ L.getD j [] → i = j
  | [], _, i, j, hi, _ => by simp at hi
  | l :: L, hn, 0, 0, _, _ => rfl
  | l :: L, hn, 0, j + 1, hi, hj => by
    rw [List.flatten_cons, List.nodup_append] at hn
    exact absurd (mem_getD_flatten x L j (by simpa using hj)) (hn.2.2 hi)
  | l :: L, hn, i + 1, 0, hi, hj => by
    rw [List.flatten_cons, List.nodup_append] at hn
    exact absurd (mem_getD_flatten x L i (by simpa using hi)) (hn.2.2 hj)
  | l :: L, hn, i + 1, j + 1, hi, hj => by
    rw [List.flatten_cons, List.nodup_append] at hn
    have := flatten_nodup_unique x L hn.2.1 i j (by simpa using hi) (by simpa using hj)
    omega

theorem flatten_set_sublist {α : Type} (x' : List α) :
    ∀ (L : List (List α)) (i : Nat), x'.Sublist (L.getD i []) →
      ((L.set i x').flatten).Sublist L.flatten
  | [], _, _ => by simp
  | l :: L, 0, h => by
    simp only [List.set_cons_zero, List.flatten_cons]
    exact List.Sublist.append (by simpa using h) (List.Sublist.refl _)
  | l :: L, i + 1, h => by
    simp only [List.set_cons_succ, List.flatten_cons]
    exact List.Sublist.append (List.Sublist.refl _)
      (flatten_set_sublist x' L i (by simpa using h))

theorem mem_flatten_set_cons {α : Type} (x y : α) :
    ∀ (L : List (List α)) (i : Nat),
      y ∈ (L.set i (x :: L.getD i [])).flatten → y = x ∨ y ∈ L.flatten
  | [], _, hy => by simp at hy
  | l :: L, 0, hy => by
    simp only [List.set_cons_zero, List.flatten_cons, List.mem_append,
      List.mem_cons, List.getD_cons_zero] at hy
    rcases hy with (h | h) | h
    · exact Or.inl h
    · exact Or.inr (by simp [List.flatten_cons, List.mem_append, h])
    · exact Or.inr (by simp [List.flatten_cons, List.mem_append, h])
  | l :: L, i + 1, hy => by
    simp only [List.set_cons_succ, List.flatten_cons, List.mem_append] at hy
    rcases hy with h | h
    · exact Or.inr (by simp [List.flatten_cons, List.mem_append, h])
    · rcases mem_flatten_set_cons x y L i (by simpa using h) with h2 | h2
      · exact Or.inl h2
      · exact Or.inr (by simp [List.flatten_cons, List.mem_append, h2])

theorem flatten_set_cons_nodup {α : Type} (x : α) :
    ∀ (L : List (List α)) (i : Nat), i < L.length → L.flatten.Nodup →
      x ∉ L.flatten → ((L.set i (x :: L.getD i [])).flatten).Nodup
  | [], i, hl, _, _ => absurd hl (by simp)
  | l :: L, 0, _, hn, hx => by
    simp only [List.set_cons_zero, List.flatten_cons, List.getD_cons_zero]
    rw [List.cons_append, List.nodup_cons]
    exact ⟨by simpa [List.flatten_cons] using hx, by simpa [List.flatten_cons] using hn⟩
  | l :: L, i + 1, hl, hn, hx => by
    rw [List.flatten_cons, List.nodup_append] at hn
    simp only [List.set_cons_succ, List.flatten_cons]
    rw [List.nodup_append]
    refine ⟨hn.1, ?_, ?_⟩
    · exact flatten_set_cons_nodup x L i (by simpa using hl) hn.2.1
        (fun hc => hx (by simp [List.flatten_cons, List.mem_append, hc]))
    · intro y hy hy2
      rcases mem_flatten_set_cons x y L i (by simpa using hy2) with h2 | h2
      · exact hx (by simp [List.flatten_cons, List.mem_append, h2 ▸ hy])
      · exact hn.2.2 hy h2

theorem bid_inj (h : Heap) (hn : bidsNodup h) {b1 b2 : Blk}
    (h1 : b1 ∈ h.blocks) (h2 : b2 ∈ h.blocks) (he : b1.bid = b2.bid) : b1 = b2 :=
  List.inj_on_of_nodup_map hn h1 h2 he

theorem mem_decomp {b : Blk} (h : Heap) (hb : b ∈ h.blocks) (hn : bidsNodup h) :
    ∃ l r, h.blocks = l ++ b :: r ∧ (∀ x ∈ l, x.bid ≠ b.bid) ∧
      (∀ x ∈ r, x.bid ≠ b.bid) := by
  obtain ⟨l, r, hd⟩ := List.append_of_mem hb
  refine ⟨l, r, hd, ?_, ?_⟩
  · intro x hx he
    have hn2 := hn
    unfold bidsNodup at hn2
    rw [hd, List.map_append, List.map_cons, List.nodup_middle, List.nodup_cons] at hn2
    exact hn2.1 (by rw [← he]; exact List.mem_append.mpr (Or.inl (List.mem_map_of_mem _ hx)))
  · intro x hx he
    have hn2 := hn
    unfold bidsNodup at hn2
    rw [hd, List.map_append, List.map_cons, List.nodup_middle, List.nodup_cons] at hn2
    exact hn2.1 (by rw [← he]; exact List.mem_append.mpr (Or.inr (List.mem_map_of_mem _ hx)))

theorem lookupBlk_middle (h : Heap) {l r : List Blk} {b : Blk}
    (hd : h.blocks = l ++ b :: r) (hl : ∀ x ∈ l, x.bid ≠ b.bid) :
    lookupBlk h b.bid = some b := by
  unfold lookupBlk
  rw [hd]
  exact find?_middle _ b r l (fun x hx => by simp [hl x hx]) (by simp)

theorem sizeOfId_middle (h : Heap) {l r : List Blk} {b : Blk}
    (hd : h.blocks = l ++ b :: r) (hl : ∀ x ∈ l, x.bid ≠ b.bid) :
    sizeOfId h b.bid = b.hsize := by
  unfold sizeOfId
  rw [lookupBlk_middle h hd hl]

theorem lookupBlk_of_mem (h : Heap) (hn : bidsNodup h) {b : Blk} (hb : b ∈ h.blocks) :
    lookupBlk h b.bid = some b := by
  obtain ⟨l, r, hd, hl, _⟩ := mem_decomp h hb hn
  exact lookupBlk_middle h hd hl

theorem sizeOfId_of_mem (h : Heap) (hn : bidsNodup h) {b : Blk} (hb : b ∈ h.blocks) :
    sizeOfId h b.bid = b.hsize := by
  unfold sizeOfId
  rw [lookupBlk_of_mem h hn hb]

theorem setBlk_middle (id : Nat) (nb b : Blk) (r : List Blk) :
    ∀ l : List Blk, (∀ x ∈ l, x.bid ≠ id) → b.bid = id →
      setBlk id nb (l ++ b :: r) = l ++ nb :: r
  | [], _, hb => by simp [setBlk, hb]
  | a :: l, hl, hb => by
    have ha : a.bid ≠ id := hl a (by simp)
    simp only [List.cons_append, setBlk, if_neg ha, List.append_eq]
    rw [setBlk_middle id nb b r l (fun x hx => hl x (by simp [hx])) hb]

theorem splitBlk_middle (id : Nat) (b1 b2 b : Blk) (r : List Blk) :
    ∀ l : List Blk, (∀ x ∈ l, x.bid ≠ id) → b.bid = id →
      splitBlk id b1 b2 (l ++ b :: r) = l ++ b1 :: b2 :: r
  | [], _, hb => by simp [splitBlk, hb]
  | a :: l, hl, hb => by
    have ha : a.bid ≠ id := hl a (by simp)
    simp only [List.cons_append, splitBlk, if_neg ha, List.append_eq]
    rw [splitBlk_middle id b1 b2 b r l (fun x hx => hl x (by simp [hx])) hb]

theorem getD_nodup_of_flatten {α : Type} :
    ∀ (L : List (List α)) (i : Nat), L.flatten.Nodup → (L.getD i []).Nodup
  | [], i, _ => by simp
  | l :: L, 0, hn => by
    rw [List.flatten_cons, List.nodup_append] at hn
    simpa using hn.1
  | l :: L, i + 1, hn => by
    rw [List.flatten_cons, List.nodup_append] at hn
    simpa using getD_nodup_of_flatten L i hn.2.1

theorem segGet_segSet_self (h : Heap) (i : Nat) (l : List Nat)
    (hi : i < h.seg.length) : segGet (segSet h i l) i = l :=
  getD_set_self [] l h.seg i hi

theorem segGet_segSet_ne (h : Heap) (i : Nat) (l : List Nat) {j : Nat}
    (hj : j ≠ i) : segGet (segSet h i l) j = segGet h j :=
  getD_set_ne [] l h.seg i j hj

theorem segSet_seg_length (h : Heap) (i : Nat) (l : List Nat) :
    (segSet h i l).seg.length = h.seg.length :=
  List.length_set h.seg i l

theorem delete_seg_length (h : Heap) (id : Nat) :
    (delete_free_list h id).seg.length = h.seg.length :=
  List.length_set _ _ _

theorem delete_segNodup (h : Heap) (id : Nat) (hnd : segNodup h) :
    segNodup (delete_free_list h id) :=
  List.Nodup.sublist
    (flatten_set_sublist _ h.seg _ (List.erase_sublist id _)) hnd

theorem delete_mem_iff (h : Heap) {b : Blk} (hb : b ∈ h.blocks)
    (hlen : h.seg.length = LIST_NUM) (hnd : segNodup h) (hbn : bidsNodup h)
    (hmem : b.bid ∈ segGet h (get_seglist_no b.hsize)) :
    ∀ j < LIST_NUM, ∀ y,
      (y ∈ segGet (delete_free_list h b.bid) j ↔ y ∈ segGet h j ∧ y ≠ b.bid) := by
  intro j hj y
  have hsz : sizeOfId h b.bid = b.hsize := sizeOfId_of_mem h hbn hb
  have hno : get_seglist_no (sizeOfId h b.bid) = get_seglist_no b.hsize := by rw [hsz]
  unfold delete_free_list
  rw [hno]
  by_cases hcase : j = get_seglist_no b.hsize
  · subst hcase
    rw [segGet_segSet_self h _ _ (by rw [hlen]; exact get_seglist_no_lt _)]
    have hndl : (segGet h (get_seglist_no b.hsize)).Nodup :=
      getD_nodup_of_flatten h.seg _ hnd
    rw [List.Nodup.mem_erase_iff hndl]
    tauto
  · rw [segGet_segSet_ne h _ _ hcase]
    constructor
    · intro hy
      refine ⟨hy, fun he => ?_⟩
      subst he
      exact hcase (flatten_nodup_unique b.bid h.seg hnd j _ hy hmem)
    · exact fun hy => hy.1

theorem insertSeg_seg_length (h : Heap) (id : Nat) :
    (insertSeg h id).seg.length = h.seg.length :=
  List.length_set _ _ _

theorem insertSeg_segGet_self (h : Heap) (id : Nat)
    (hlen : h.seg.length = LIST_NUM) :
    segGet (insertSeg h id) (get_seglist_no (sizeOfId h id)) =
      id :: segGet h (get_seglist_no (sizeOfId h id)) :=
  segGet_segSet_self h _ _ (by rw [hlen]; exact get_seglist_no_lt _)

theorem insertSeg_segGet_ne (h : Heap) (id : Nat) {j : Nat}
    (hj : j ≠ get_seglist_no (sizeOfId h id)) :
    segGet (insertSeg h id) j = segGet h j :=
  segGet_segSet_ne h _ _ hj

theorem insertSeg_segNodup (h : Heap) (id : Nat) (hlen : h.seg.length = LIST_NUM)
    (hnd : segNodup h) (hx : id ∉ h.seg.flatten) : segNodup (insertSeg h id) :=
  flatten_set_cons_nodup id h.seg _ (by rw [hlen]; exact get_seglist_no_lt _) hnd hx

theorem insert_wf (h : Heap) (id : Nat) (hp : PreInsert h id) :
    WF (insertSeg h id) := by
  obtain ⟨hlen, hts, hsz, hchain, hbn, hib, hnd, hsound, hcomp, hnotin, b, hbmem, hbid, hbfree⟩ := hp
  have hszid : sizeOfId h id = b.hsize := by
    rw [← hbid]; exact sizeOfId_of_mem h hbn hbmem
  refine ⟨?_, ?_, ?_, ?_, ?_, ?_, ?_, ?_, ?_⟩
  · rw [insertSeg_seg_length]; exact hlen
  · exact hts
  · exact hsz
  · exact hchain
  · exact hbn
  · exact hib
  · exact insertSeg_segNodup h id hlen hnd hnotin
  · intro i hi y hy
    by_cases hcase : i = get_seglist_no (sizeOfId h id)
    · subst hcase
      rw [insertSeg_segGet_self h id hlen] at hy
      rcases List.mem_cons.mp hy with hy1 | hy1
      · exact ⟨b, hbmem, by rw [hbid, hy1], hbfree, by rw [← hszid]⟩
      · exact hsound _ hi y hy1
    · rw [insertSeg_segGet_ne h id hcase] at hy
      exact hsound _ hi y hy
  · intro x hx hxfree
    by_cases hcase : x.bid = id
    · have hxb : x = b := bid_inj h hbn hx hbmem (by rw [hcase, hbid])
      have : get_seglist_no x.hsize = get_seglist_no (sizeOfId h id) := by
        rw [hszid, hxb]
      rw [this, insertSeg_segGet_self h id hlen]
      exact List.mem_cons.mpr (Or.inl hcase)
    · have hold := hcomp x hx hxfree hcase
      by_cases hcase2 : get_seglist_no x.hsize = get_seglist_no (sizeOfId h id)
      · rw [hcase2, insertSeg_segGet_self h id hlen]
        exact List.mem_cons.mpr (Or.inr (by rw [← hcase2]; exact hold))
      · rw [insertSeg_segGet_ne h id hcase2]
        exact hold

theorem exists_getD_of_mem_flatten {α : Type} (x : α) :
    ∀ L : List (List α), x ∈ L.flatten → ∃ i, i < L.length ∧ x ∈ L.getD i []
  | [], hx => by simp at hx
  | l :: L, hx => by
    rw [List.flatten_cons, List.mem_append] at hx
    rcases hx with h | h
    · exact ⟨0, by simp, by simpa using h⟩
    · obtain ⟨i, hi, hm⟩ := exists_getD_of_mem_flatten x L h
      exact ⟨i + 1, by simpa using hi, by simpa using hm⟩

/-- Core lemma behind the three merge cases of `coalesce`: replacing the
consumed run `mids` (all free, nobody's neighbour free) by the single merged
block, after the segregated lists lost exactly the bids `delBids`, yields a
state ready for the head-insertion of `add_free_list`. -/
theorem merged_ok (h hd : Heap) (L R mids : List Blk) (delBids : List Nat)
    (mid msz idOrig : Nat)
    (hdec : h.blocks = L ++ (mids ++ R))
    (hts : tagSym h) (hszk : sizesOk h)
    (hbn : bidsNodup h) (hib : idsBound h) (hsound : segSound h)
    (hcomp : ∀ b ∈ h.blocks, b.halloc = false → b.bid ≠ idOrig →
      b.bid ∈ segGet h (get_seglist_no b.hsize))
    (hnotin : idOrig ∉ h.seg.flatten)
    (hdnext : hd.nextId = h.nextId)
    (hdlen : hd.seg.length = LIST_NUM)
    (hdnd : segNodup hd)
    (hdseg : ∀ j < LIST_NUM, ∀ y, (y ∈ segGet hd j ↔ y ∈ segGet h j ∧ y ∉ delBids))
    (hfree : ∀ x ∈ mids, x.halloc = false)
    (hmsz1 : MIN_BLOCK_SIZE ≤ msz) (hmsz2 : msz % 8 = 0)
    (hbl : ∀ x ∈ L.getLast?, x.halloc = true)
    (hbr : ∀ y ∈ R.head?, y.halloc = true)
    (hchL : List.Chain' (fun a c => a.halloc = true ∨ c.halloc = true) L)
    (hchR : List.Chain' (fun a c => a.halloc = true ∨ c.halloc = true) R)
    (hmidmem : mid ∈ mids.map Blk.bid)
    (hidor : idOrig ∈ mids.map Blk.bid)
    (hmidbids : ∀ x ∈ mids, x.bid = idOrig ∨ x.bid ∈ delBids)
    (hdelsub : ∀ y ∈ delBids, y ∈ mids.map Blk.bid)
    (hmidchoice : mid = idOrig ∨ mid ∈ delBids) :
    PreInsert { hd with blocks := L ++ ⟨mid, msz, false, msz, false⟩ :: R } mid ∧
    (∀ x ∈ h.blocks, x.halloc = true →
      x ∈ L ++ (⟨mid, msz, false, msz, false⟩ : Blk) :: R) := by
  have hbn2 : ((L ++ (mids ++ R)).map Blk.bid).Nodup := by rw [← hdec]; exact hbn
  rw [List.map_append, List.map_append, List.nodup_append] at hbn2
  obtain ⟨hndL, hbn3, hdisjL⟩ := hbn2
  rw [List.nodup_append] at hbn3
  obtain ⟨hndM, hndR, hdisjMR⟩ := hbn3
  have hmemh : ∀ x : Blk, x ∈ L ∨ x ∈ R → x ∈ h.blocks := by
    intro x hx
    rw [hdec]
    rcases hx with hx | hx
    · exact List.mem_append.mpr (Or.inl hx)
    · exact List.mem_append.mpr (Or.inr (List.mem_append.mpr (Or.inr hx)))
  have hLR_not_mids : ∀ x : Blk, x ∈ L ∨ x ∈ R → x.bid ∉ mids.map Blk.bid := by
    intro x hx hmm
    rcases hx with hx | hx
    · exact hdisjL (List.mem_map_of_mem _ hx) (List.mem_append.mpr (Or.inl hmm))
    · exact hdisjMR hmm (List.mem_map_of_mem _ hx)
  constructor
  · refine ⟨hdlen, ?_, ?_, ?_, ?_, ?_, ?_, ?_, ?_, ?_, ?_⟩
    · -- tagSym
      intro x hx
      rcases List.mem_append.mp hx with hx | hx
      · exact hts x (hmemh x (Or.inl hx))
      · rcases List.mem_cons.mp hx with hx | hx
        · subst hx; exact ⟨rfl, rfl⟩
        · exact hts x (hmemh x (Or.inr hx))
    · -- sizesOk
      intro x hx
      rcases List.mem_append.mp hx with hx | hx
      · exact hszk x (hmemh x (Or.inl hx))
      · rcases List.mem_cons.mp hx with hx | hx
        · subst hx; exact ⟨hmsz1, hmsz2⟩
        · exact hszk x (hmemh x (Or.inr hx))
    · -- noAdjacentFree
      unfold noAdjacentFree
      rw [List.chain'_append]
      refine ⟨hchL, ?_, ?_⟩
      · rw [List.chain'_cons']
        exact ⟨fun y hy => Or.inr (hbr y hy), hchR⟩
      · intro x hx y hy
        simp only [List.head?_cons, Option.mem_some_iff] at hy
        subst hy
        exact Or.inl (hbl x hx)
    · -- bidsNodup
      unfold bidsNodup
      have hsub : ((L ++ (⟨mid, msz, false, msz, false⟩ : Blk) :: R).map Blk.bid).Sublist
          ((L ++ (mids ++ R)).map Blk.bid) := by
        rw [List.map_append, List.map_append, List.map_append, List.map_cons]
        exact List.Sublist.append (List.Sublist.refl _)
          (List.Sublist.append (List.singleton_sublist.mpr hmidmem) (List.Sublist.refl _))
      exact List.Nodup.sublist hsub (by rw [← hdec]; exact hbn)
    · -- idsBound
      intro x hx
      rcases List.mem_append.mp hx with hx | hx
      · rw [hdnext]; exact hib x (hmemh x (Or.inl hx))
      · rcases List.mem_cons.mp hx with hx | hx
        · subst hx
          obtain ⟨xm, hxm, hxme⟩ := List.mem_map.mp hmidmem
          rw [hdnext, ← hxme]
          refine hib xm ?_
          rw [hdec]
          exact List.mem_append.mpr (Or.inr (List.mem_append.mpr (Or.inl hxm)))
        · rw [hdnext]; exact hib x (hmemh x (Or.inr hx))
    · -- segNodup
      exact hdnd
    · -- segSound
      intro j hj y hy
      obtain ⟨hyh, hynot⟩ := (hdseg j hj y).mp hy
      obtain ⟨b2, hb2mem, hb2bid, hb2free, hb2cls⟩ := hsound j hj y hyh
      refine ⟨b2, ?_, hb2bid, hb2free, hb2cls⟩
      rw [hdec] at hb2mem
      rcases List.mem_append.mp hb2mem with hm2 | hm2
      · exact List.mem_append.mpr (Or.inl hm2)
      · rcases List.mem_append.mp hm2 with hm2 | hm2
        · rcases hmidbids b2 hm2 with he | he
          · exact absurd (mem_getD_flatten y h.seg j hyh)
              (by rw [← hb2bid, he] at hynot ⊢; exact hnotin)
          · exact absurd he (by rw [hb2bid]; exact hynot)
        · exact List.mem_append.mpr (Or.inr (List.mem_cons.mpr (Or.inr hm2)))
    · -- completeness except mid
      intro x hx hxfree hxne
      rcases List.mem_append.mp hx with hx2 | hx2
      · have hxh := hmemh x (Or.inl hx2)
        have hxno : x.bid ∉ mids.map Blk.bid := hLR_not_mids x (Or.inl hx2)
        have hlisted := hcomp x hxh hxfree (fun he => hxno (he ▸ hidor))
        exact (hdseg _ (get_seglist_no_lt _) x.bid).mpr
          ⟨hlisted, fun hc => hxno (hdelsub _ hc)⟩
      · rcases List.mem_cons.mp hx2 with hx2 | hx2
        · exact absurd (by rw [hx2]) hxne
        · have hxh := hmemh x (Or.inr hx2)
          have hxno : x.bid ∉ mids.map Blk.bid := hLR_not_mids x (Or.inr hx2)
          have hlisted := hcomp x hxh hxfree (fun he => hxno (he ▸ hidor))
          exact (hdseg _ (get_seglist_no_lt _) x.bid).mpr
            ⟨hlisted, fun hc => hxno (hdelsub _ hc)⟩
    · -- mid not listed
      intro hc
      obtain ⟨j, hjlen, hjmem⟩ := exists_getD_of_mem_flatten mid hd.seg hc
      rw [hdlen] at hjlen
      obtain ⟨hmh, hmnot⟩ := (hdseg j hjlen mid).mp hjmem
      rcases hmidchoice with he | he
      · exact hnotin (he ▸ mem_getD_flatten mid h.seg j hmh)
      · exact hmnot he
    · -- the merged block itself
      exact ⟨⟨mid, msz, false, msz, false⟩,
        List.mem_append.mpr (Or.inr (List.mem_cons.mpr (Or.inl rfl))), rfl, rfl⟩
  · -- persistence of allocated blocks
    intro x hx hxa
    rw [hdec] at hx
    rcases List.mem_append.mp hx with hx2 | hx2
    · exact List.mem_append.mpr (Or.inl hx2)
    · rcases List.mem_append.mp hx2 with hx2 | hx2
      · rw [hfree x hx2] at hxa; exact absurd hxa (by simp)
      · exact List.mem_append.mpr (Or.inr (List.mem_cons.mpr (Or.inr hx2)))

theorem nodup_distinct_lr {l r : List Blk} {b : Blk}
    (hn : ((l ++ b :: r).map Blk.bid).Nodup) :
    ∀ x ∈ l, ∀ y ∈ r, x.bid ≠ y.bid := by
  rw [List.map_append, List.map_cons, List.nodup_append] at hn
  intro x hx y hy he
  exact hn.2.2 (List.mem_map_of_mem _ hx)
    (List.mem_cons.mpr (Or.inr (he ▸ List.mem_map_of_mem _ hy)))

/-- Assemble `PreInsert` for the no-merge case of `coalesce`: both physical
neighbours of the freed block read as allocated. -/
theorem nomerge_ok (h : Heap) (l r : List Blk) (b : Blk)
    (hlen : h.seg.length = LIST_NUM) (hts : tagSym h) (hszk : sizesOk h)
    (hbn : bidsNodup h) (hib : idsBound h) (hnd : segNodup h) (hsound : segSound h)
    (hcomp : ∀ x ∈ h.blocks, x.halloc = false → x.bid ≠ b.bid →
      x.bid ∈ segGet h (get_seglist_no x.hsize))
    (hnotin : b.bid ∉ h.seg.flatten)
    (hdec : h.blocks = l ++ b :: r) (hbfree : b.halloc = false)
    (hchl : List.Chain' (fun a c => a.halloc = true ∨ c.halloc = true) l)
    (hchr : List.Chain' (fun a c => a.halloc = true ∨ c.halloc = true) r)
    (hbl : ∀ x ∈ l.getLast?, x.halloc = true)
    (hbr : ∀ y ∈ r.head?, y.halloc = true) :
    PreInsert h b.bid := by
  refine ⟨hlen, hts, hszk, ?_, hbn, hib, hnd, hsound, hcomp, hnotin,
    b, by rw [hdec]; exact List.mem_append.mpr (Or.inr (List.mem_cons.mpr (Or.inl rfl))),
    rfl, hbfree⟩
  unfold noAdjacentFree
  rw [hdec, List.chain'_append]
  refine ⟨hchl, ?_, ?_⟩
  · rw [List.chain'_cons']
    exact ⟨fun y hy => Or.inr (hbr y hy), hchr⟩
  · intro x hx y hy
    simp only [List.head?_cons, Option.mem_some_iff] at hy
    subst hy
    exact Or.inl (hbl x hx)

theorem coalesce_ok (h : Heap) (id : Nat) (hp : PreAdd h id) :
    PreInsert (coalesce h id).1 (coalesce h id).2 ∧
    (coalesce h id).1.nextId = h.nextId ∧
    (∀ x ∈ h.blocks, x.halloc = true → x ∈ (coalesce h id).1.blocks) ∧
    (∃ m ∈ (coalesce h id).1.blocks, m.bid = (coalesce h id).2 ∧
      m.halloc = false ∧ sizeOfId h id ≤ m.hsize) := by
  obtain ⟨hlen, hts, hszk, hbn, hib, hnd, hsound, hcomp, hnotin, l, b, r, hdec, hbid, hbfree, hchl, hchr⟩ := hp
  subst hbid
  have hbn2 : ((l ++ b :: r).map Blk.bid).Nodup := by rw [← hdec]; exact hbn
  have hlb : ∀ x ∈ l, x.bid ≠ b.bid := by
    rw [List.map_append, List.map_cons, List.nodup_middle, List.nodup_cons] at hbn2
    intro x hx he
    exact hbn2.1 (List.mem_append.mpr (Or.inl (he ▸ List.mem_map_of_mem _ hx)))
  have hrb : ∀ x ∈ r, x.bid ≠ b.bid := by
    have hbn3 : ((l ++ b :: r).map Blk.bid).Nodup := by rw [← hdec]; exact hbn
    rw [List.map_append, List.map_cons, List.nodup_middle, List.nodup_cons] at hbn3
    intro x hx he
    exact hbn3.1 (List.mem_append.mpr (Or.inr (he ▸ List.mem_map_of_mem _ hx)))
  have hTD := takeWhile_middle (fun x => decide (x.bid ≠ b.bid)) b r l
    (fun x hx => by simp [hlb x hx]) (by simp)
  have hszb : sizeOfId h b.bid = b.hsize := sizeOfId_middle h hdec hlb
  rcases List.eq_nil_or_concat l with rfl | ⟨l2, p, rfl⟩
  · -- no previous physical neighbour (prologue side)
    cases r with
    | nil =>
      have hceq : coalesce h b.bid = (h, b.bid) := by
        unfold coalesce
        rw [hdec, hTD.1, hTD.2]
        rfl
      rw [hceq]
      refine ⟨nomerge_ok h [] [] b hlen hts hszk hbn hib hnd hsound hcomp hnotin hdec
        hbfree hchl hchr (by simp) (by simp), rfl, fun x hx _ => hx, b, ?_, rfl, hbfree, ?_⟩
      · rw [hdec]; exact List.mem_append.mpr (Or.inr (List.mem_cons.mpr (Or.inl rfl)))
      · rw [hszb]
    | cons n r2 =>
      have hnr2 : n ∈ h.blocks := by
        rw [hdec]; exact List.mem_append.mpr (Or.inr (by simp))
      cases hna : n.halloc with
      | true =>
        have hceq : coalesce h b.bid = (h, b.bid) := by
          unfold coalesce
          rw [hdec, hTD.1, hTD.2]
          simp only [List.getLast?_nil, List.head?_cons, List.tail_cons]
          rw [if_pos hna]
        rw [hceq]
        refine ⟨nomerge_ok h [] (n :: r2) b hlen hts hszk hbn hib hnd hsound hcomp hnotin
          hdec hbfree hchl hchr (by simp) ?_, rfl, fun x hx _ => hx, b, ?_, rfl, hbfree, ?_⟩
        · intro y hy
          simp only [List.head?_cons, Option.mem_some_iff] at hy
          subst hy
          exact hna
        · rw [hdec]; exact List.mem_append.mpr (Or.inr (List.mem_cons.mpr (Or.inl rfl)))
        · rw [hszb]
      | false =>
        have hceq : coalesce h b.bid =
            ({ delete_free_list h n.bid with
                blocks := [] ++ (⟨b.bid, b.hsize + n.hsize, false,
                  b.hsize + n.hsize, false⟩ : Blk) :: r2 }, b.bid) := by
          unfold coalesce
          rw [hdec, hTD.1, hTD.2]
          simp only [List.getLast?_nil, List.head?_cons, List.tail_cons]
          rw [if_neg (by simp [hna])]
        have hnne : n.bid ≠ b.bid := hrb n (by simp)
        have hnlisted : n.bid ∈ segGet h (get_seglist_no n.hsize) :=
          hcomp n hnr2 hna hnne
        have hdel := delete_mem_iff h hnr2 hlen hnd hbn hnlisted
        have hszkb := hszk b (by rw [hdec]; exact List.mem_append.mpr (Or.inr (by simp)))
        have hszkn := hszk n hnr2
        have hcc := List.chain'_cons'.mp hchr
        have hM := merged_ok h (delete_free_list h n.bid) [] r2 [b, n] [n.bid]
          b.bid (b.hsize + n.hsize) b.bid
          (by rw [hdec]; rfl) hts hszk hbn hib hsound hcomp hnotin
          rfl (by rw [delete_seg_length]; exact hlen) (delete_segNodup h n.bid hnd)
          (fun j hj y => by rw [hdel j hj y]; simp)
          (by intro x hx; rcases List.mem_cons.mp hx with rfl | hx
              · exact hbfree
              · rcases List.mem_cons.mp hx with rfl | hx
                · exact hna
                · simp at hx)
          (by unfold MIN_BLOCK_SIZE at hszkb ⊢; omega) (by omega)
          (by simp) (fun y hy => (hcc.1 y hy).resolve_left (by simp [hna])) (by simp) hcc.2
          (by simp) (by simp)
          (by intro x hx; rcases List.mem_cons.mp hx with rfl | hx
              · exact Or.inl rfl
              · rcases List.mem_cons.mp hx with rfl | hx
                · exact Or.inr (by simp)
                · simp at hx)
          (by simp) (Or.inl rfl)
        rw [hceq]
        refine ⟨hM.1, rfl, hM.2, ⟨b.bid, b.hsize + n.hsize, false, b.hsize + n.hsize, false⟩,
          by simp, rfl, rfl, ?_⟩
        show sizeOfId h b.bid ≤ b.hsize + n.hsize
        rw [hszb]; omega
  · -- a previous physical neighbour p exists
    simp only [List.concat_eq_append] at hdec hchl hlb hbn2 hTD
    have hpmem : p ∈ h.blocks := by
      rw [hdec]; exact List.mem_append.mpr (Or.inl (by simp))
    have hbmem : b ∈ h.blocks := by
      rw [hdec]; exact List.mem_append.mpr (Or.inr (by simp))
    have htsp := hts p hpmem
    have hszkb := hszk b hbmem
    have hszkp := hszk p hpmem
    have hchl2 := List.chain'_append.mp hchl
    have hbl2 : p.halloc = false → ∀ x ∈ l2.getLast?, x.halloc = true := by
      intro hpfree x hx
      have := hchl2.2.2 x hx p (by simp)
      rcases this with hh | hh
      · exact hh
      · rw [hpfree] at hh; exact absurd hh (by simp)
    cases r with
    | nil =>
      cases hpf : p.falloc with
      | true =>
        have hceq : coalesce h b.bid = (h, b.bid) := by
          unfold coalesce
          rw [hdec, hTD.1, hTD.2]
          simp only [List.getLast?_concat, List.head?_nil]
          rw [if_pos hpf]
        rw [hceq]
        refine ⟨nomerge_ok h (l2 ++ [p]) [] b hlen hts hszk hbn hib hnd hsound hcomp hnotin
          hdec hbfree hchl hchr ?_ (by simp), rfl, fun x hx _ => hx, b, hbmem, rfl, hbfree, ?_⟩
        · intro x hx
          rw [List.getLast?_concat] at hx
          simp only [Option.mem_some_iff] at hx
          subst hx
          rw [← htsp.2]; exact hpf
        · rw [hszb]
      | false =>
        have hpfree : p.halloc = false := by rw [← htsp.2]; exact hpf
        have hceq : coalesce h b.bid =
            ({ delete_free_list h p.bid with
                blocks := l2 ++ (⟨p.bid, b.hsize + p.hsize, false,
                  b.hsize + p.hsize, false⟩ : Blk) :: [] }, p.bid) := by
          unfold coalesce
          rw [hdec, hTD.1, hTD.2]
          simp only [List.getLast?_concat, List.head?_nil, List.dropLast_concat]
          rw [if_neg (by simp [hpf])]
        have hpne : p.bid ≠ b.bid := hlb p (by simp)
        have hplisted : p.bid ∈ segGet h (get_seglist_no p.hsize) :=
          hcomp p hpmem hpfree hpne
        have hdel := delete_mem_iff h hpmem hlen hnd hbn hplisted
        have hM := merged_ok h (delete_free_list h p.bid) l2 [] [p, b] [p.bid]
          p.bid (b.hsize + p.hsize) b.bid
          (by rw [hdec]; simp) hts hszk hbn hib hsound hcomp hnotin
          rfl (by rw [delete_seg_length]; exact hlen) (delete_segNodup h p.bid hnd)
          (fun j hj y => by rw [hdel j hj y]; simp)
          (by intro x hx; rcases List.mem_cons.mp hx with rfl | hx
              · exact hpfree
              · rcases List.mem_cons.mp hx with rfl | hx
                · exact hbfree
                · simp at hx)
          (by unfold MIN_BLOCK_SIZE at hszkb ⊢; omega) (by omega)
          (hbl2 hpfree) (by simp) hchl2.1 List.chain'_nil
          (by simp) (by simp)
          (by intro x hx; rcases List.mem_cons.mp hx with rfl | hx
              · exact Or.inr (by simp)
              · rcases List.mem_cons.mp hx with rfl | hx
                · exact Or.inl rfl
                · simp at hx)
          (by simp) (Or.inr (by simp))
        rw [hceq]
        refine ⟨hM.1, rfl, hM.2, ⟨p.bid, b.hsize + p.hsize, false, b.hsize + p.hsize, false⟩,
          by simp, rfl, rfl, ?_⟩
        show sizeOfId h b.bid ≤ b.hsize + p.hsize
        rw [hszb]; omega
    | cons n r2 =>
      have hnr2 : n ∈ h.blocks := by
        rw [hdec]; exact List.mem_append.mpr (Or.inr (by simp))
      have hszkn := hszk n hnr2
      have htsn := hts n hnr2
      have hcc := List.chain'_cons'.mp hchr
      cases hpf : p.falloc with
      | true =>
        cases hna : n.halloc with
        | true =>
          have hceq : coalesce h b.bid = (h, b.bid) := by
            unfold coalesce
            rw [hdec, hTD.1, hTD.2]
            simp only [List.getLast?_concat, List.head?_cons]
            rw [if_pos hpf, if_pos hna]
          rw [hceq]
          refine ⟨nomerge_ok h (l2 ++ [p]) (n :: r2) b hlen hts hszk hbn hib hnd hsound
            hcomp hnotin hdec hbfree hchl hchr ?_ ?_, rfl, fun x hx _ => hx,
            b, hbmem, rfl, hbfree, ?_⟩
          · intro x hx
            rw [List.getLast?_concat] at hx
            simp only [Option.mem_some_iff] at hx
            subst hx
            rw [← htsp.2]; exact hpf
          · intro y hy
            simp only [List.head?_cons, Option.mem_some_iff] at hy
            subst hy
            exact hna
          · rw [hszb]
        | false =>
          have hceq : coalesce h b.bid =
              ({ delete_free_list h n.bid with
                  blocks := (l2 ++ [p]) ++ (⟨b.bid, b.hsize + n.hsize, false,
                    b.hsize + n.hsize, false⟩ : Blk) :: r2 }, b.bid) := by
            unfold coalesce
            rw [hdec, hTD.1, hTD.2]
            simp only [List.getLast?_concat, List.head?_cons, List.tail_cons]
            rw [if_pos hpf, if_neg (by simp [hna])]
          have hnne : n.bid ≠ b.bid := hrb n (by simp)
          have hnlisted : n.bid ∈ segGet h (get_seglist_no n.hsize) :=
            hcomp n hnr2 hna hnne
          have hdel := delete_mem_iff h hnr2 hlen hnd hbn hnlisted
          have hM := merged_ok h (delete_free_list h n.bid) (l2 ++ [p]) r2 [b, n] [n.bid]
            b.bid (b.hsize + n.hsize) b.bid
            (by rw [hdec]; simp) hts hszk hbn hib hsound hcomp hnotin
            rfl (by rw [delete_seg_length]; exact hlen) (delete_segNodup h n.bid hnd)
            (fun j hj y => by rw [hdel j hj y]; simp)
            (by intro x hx; rcases List.mem_cons.mp hx with rfl | hx
                · exact hbfree
                · rcases List.mem_cons.mp hx with rfl | hx
                  · exact hna
                  · simp at hx)
            (by unfold MIN_BLOCK_SIZE at hszkb ⊢; omega) (by omega)
            (by intro x hx
                rw [List.getLast?_concat] at hx
                simp only [Option.mem_some_iff] at hx
                subst hx
                rw [← htsp.2]; exact hpf)
            (fun y hy => (hcc.1 y hy).resolve_left (by simp [hna])) hchl hcc.2
            (by simp) (by simp)
            (by intro x hx; rcases List.mem_cons.mp hx with rfl | hx
                · exact Or.inl rfl
                · rcases List.mem_cons.mp hx with rfl | hx
                  · exact Or.inr (by simp)
                  · simp at hx)
            (by simp) (Or.inl rfl)
          rw [hceq]
          refine ⟨hM.1, rfl, hM.2,
            ⟨b.bid, b.hsize + n.hsize, false, b.hsize + n.hsize, false⟩,
            by simp, rfl, rfl, ?_⟩
          show sizeOfId h b.bid ≤ b.hsize + n.hsize
          rw [hszb]; omega
      | false =>
        have hpfree : p.halloc = false := by rw [← htsp.2]; exact hpf
        have hpne : p.bid ≠ b.bid := hlb p (by simp)
        have hplisted : p.bid ∈ segGet h (get_seglist_no p.hsize) :=
          hcomp p hpmem hpfree hpne
        have hdel1 := delete_mem_iff h hpmem hlen hnd hbn hplisted
        cases hna : n.halloc with
        | true =>
          have hceq : coalesce h b.bid =
              ({ delete_free_list h p.bid with
                  blocks := l2 ++ (⟨p.bid, b.hsize + p.hsize, false,
                    b.hsize + p.hsize, false⟩ : Blk) :: n :: r2 }, p.bid) := by
            unfold coalesce
            rw [hdec, hTD.1, hTD.2]
            simp only [List.getLast?_concat, List.head?_cons, List.dropLast_concat]
            rw [if_neg (by simp [hpf]), if_pos hna]
          have hM := merged_ok h (delete_free_list h p.bid) l2 (n :: r2) [p, b] [p.bid]
            p.bid (b.hsize + p.hsize) b.bid
            (by rw [hdec]; simp) hts hszk hbn hib hsound hcomp hnotin
            rfl (by rw [delete_seg_length]; exact hlen) (delete_segNodup h p.bid hnd)
            (fun j hj y => by rw [hdel1 j hj y]; simp)
            (by intro x hx; rcases List.mem_cons.mp hx with rfl | hx
                · exact hpfree
                · rcases List.mem_cons.mp hx with rfl | hx
                  · exact hbfree
                  · simp at hx)
            (by unfold MIN_BLOCK_SIZE at hszkb ⊢; omega) (by omega)
            (hbl2 hpfree)
            (by intro y hy
                simp only [List.head?_cons, Option.mem_some_iff] at hy
                subst hy
                exact hna)
            hchl2.1 hchr
            (by simp) (by simp)
            (by intro x hx; rcases List.mem_cons.mp hx with rfl | hx
                · exact Or.inr (by simp)
                · rcases List.mem_cons.mp hx with rfl | hx
                  · exact Or.inl rfl
                  · simp at hx)
            (by simp) (Or.inr (by simp))
          rw [hceq]
          refine ⟨hM.1, rfl, hM.2,
            ⟨p.bid, b.hsize + p.hsize, false, b.hsize + p.hsize, false⟩,
            by simp, rfl, rfl, ?_⟩
          show sizeOfId h b.bid ≤ b.hsize + p.hsize
          rw [hszb]; omega
        | false =>
          have hceq : coalesce h b.bid =
              ({ delete_free_list (delete_free_list h p.bid) n.bid with
                  blocks := l2 ++ (⟨p.bid, b.hsize + (p.hsize + n.fsize), false,
                    b.hsize + (p.hsize + n.fsize), false⟩ : Blk) :: r2 }, p.bid) := by
            unfold coalesce
            rw [hdec, hTD.1, hTD.2]
            simp only [List.getLast?_concat, List.head?_cons, List.tail_cons,
              List.dropLast_concat]
            rw [if_neg (by simp [hpf]), if_neg (by simp [hna])]
          have hnpne : n.bid ≠ p.bid :=
            (nodup_distinct_lr hbn2 p (by simp) n (by simp)).symm
          have hnne : n.bid ≠ b.bid := hrb n (by simp)
          have hnlisted : n.bid ∈ segGet h (get_seglist_no n.hsize) :=
            hcomp n hnr2 hna hnne
          have hnh1 : n ∈ (delete_free_list h p.bid).blocks := by
            rw [delete_free_list_blocks]; exact hnr2
          have hnlisted1 : n.bid ∈ segGet (delete_free_list h p.bid)
              (get_seglist_no n.hsize) :=
            (hdel1 _ (get_seglist_no_lt _) n.bid).mpr ⟨hnlisted, hnpne⟩
          have hdel2 := delete_mem_iff (delete_free_list h p.bid) hnh1
            (by rw [delete_seg_length]; exact hlen) (delete_segNodup h p.bid hnd)
            hbn hnlisted1
          have hM := merged_ok h (delete_free_list (delete_free_list h p.bid) n.bid)
            l2 r2 [p, b, n] [p.bid, n.bid]
            p.bid (b.hsize + (p.hsize + n.fsize)) b.bid
            (by rw [hdec]; simp) hts hszk hbn hib hsound hcomp hnotin
            rfl (by rw [delete_seg_length, delete_seg_length]; exact hlen)
            (delete_segNodup _ n.bid (delete_segNodup h p.bid hnd))
            (fun j hj y => by
              rw [hdel2 j hj y, hdel1 j hj y]
              simp only [List.mem_cons, List.not_mem_nil, or_false, not_or, and_assoc])
            (by intro x hx; rcases List.mem_cons.mp hx with rfl | hx
                · exact hpfree
                · rcases List.mem_cons.mp hx with rfl | hx
                  · exact hbfree
                  · rcases List.mem_cons.mp hx with rfl | hx
                    · exact hna
                    · simp at hx)
            (by rw [htsn.1]; unfold MIN_BLOCK_SIZE at hszkb ⊢; omega)
            (by rw [htsn.1]; omega)
            (hbl2 hpfree)
            (fun y hy => (hcc.1 y hy).resolve_left (by simp [hna])) hchl2.1 hcc.2
            (by simp) (by simp)
            (by intro x hx; rcases List.mem_cons.mp hx with rfl | hx
                · exact Or.inr (by simp)
                · rcases List.mem_cons.mp hx with rfl | hx
                  · exact Or.inl rfl
                  · rcases List.mem_cons.mp hx with rfl | hx
                    · exact Or.inr (by simp)
                    · simp at hx)
            (by intro y hy; rcases List.mem_cons.mp hy with rfl | hy
                · simp
                · rcases List.mem_cons.mp hy with rfl | hy
                  · simp
                  · simp at hy)
            (Or.inr (by simp))
          rw [hceq]
          refine ⟨hM.1, rfl, hM.2,
            ⟨p.bid, b.hsize + (p.hsize + n.fsize), false,
              b.hsize + (p.hsize + n.fsize), false⟩,
            by simp, rfl, rfl, ?_⟩
          show sizeOfId h b.bid ≤ b.hsize + (p.hsize + n.fsize)
          rw [hszb]; omega

theorem add_free_list_eq (h : Heap) (id : Nat) :
    add_free_list h id =
      (insertSeg (coalesce h id).1 (coalesce h id).2, (coalesce h id).2) := rfl

theorem add_free_list_ok (h : Heap) (id : Nat) (hp : PreAdd h id) :
    WF (add_free_list h id).1 ∧
    (add_free_list h id).1.nextId = h.nextId ∧
    (∀ x ∈ h.blocks, x.halloc = true → x ∈ (add_free_list h id).1.blocks) ∧
    (∃ m ∈ (add_free_list h id).1.blocks, m.bid = (add_free_list h id).2 ∧
      m.halloc = false ∧ sizeOfId h id ≤ m.hsize) := by
  obtain ⟨hPI, hnext, hpers, m, hmmem, hmbid, hmfree, hmsz⟩ := coalesce_ok h id hp
  rw [add_free_list_eq]
  refine ⟨insert_wf _ _ hPI, ?_, ?_, m, ?_, hmbid, hmfree, hmsz⟩
  · rw [insertSeg_nextId]; exact hnext
  · intro x hx hxa
    rw [insertSeg_blocks]
    exact hpers x hx hxa
  · rw [insertSeg_blocks]
    exact hmmem

theorem free_wf (h : Heap) {b : Blk} (hwf : WF h) (hb : b ∈ h.blocks)
    (hba : b.halloc = true) :
    WF (free h (some b.bid)) := by
  obtain ⟨hlen, hts, hszk, hchain, hbn, hib, hnd, hsound, hcomp⟩ := hwf
  obtain ⟨l, r, hdec, hlb, hrb⟩ := mem_decomp h hb hbn
  have hlook : lookupBlk h b.bid = some b := lookupBlk_middle h hdec hlb
  have hceq : free h (some b.bid) =
      (add_free_list { h with blocks := l ++ (⟨b.bid, b.hsize, false,
        b.hsize, false⟩ : Blk) :: r } b.bid).1 := by
    unfold free
    dsimp only
    rw [hlook]
    dsimp only
    rw [hdec, setBlk_middle b.bid _ b r l hlb rfl]
  rw [hceq]
  have hchain2 : List.Chain' (fun a c => a.halloc = true ∨ c.halloc = true) l ∧
      List.Chain' (fun a c => a.halloc = true ∨ c.halloc = true) r := by
    unfold noAdjacentFree at hchain
    rw [hdec, List.chain'_append, List.chain'_cons'] at hchain
    exact ⟨hchain.1, hchain.2.1.2⟩
  have hnotin : b.bid ∉ h.seg.flatten := by
    intro hc
    obtain ⟨j, hjlen, hjmem⟩ := exists_getD_of_mem_flatten b.bid h.seg hc
    rw [hlen] at hjlen
    obtain ⟨b2, hb2mem, hb2bid, hb2free, _⟩ := hsound j hjlen b.bid hjmem
    have : b2 = b := bid_inj h hbn hb2mem hb (by rw [hb2bid])
    rw [this] at hb2free
    rw [hba] at hb2free
    exact absurd hb2free (by simp)
  have hmemold : ∀ x : Blk, x ∈ l ∨ x ∈ r → x ∈ h.blocks := by
    intro x hx
    rw [hdec]
    rcases hx with hx | hx
    · exact List.mem_append.mpr (Or.inl hx)
    · exact List.mem_append.mpr (Or.inr (List.mem_cons.mpr (Or.inr hx)))
  have hp : PreAdd { h with blocks := l ++ (⟨b.bid, b.hsize, false,
      b.hsize, false⟩ : Blk) :: r } b.bid := by
    refine ⟨hlen, ?_, ?_, ?_, ?_, hnd, ?_, ?_, hnotin, l,
      ⟨b.bid, b.hsize, false, b.hsize, false⟩, r, rfl, rfl, rfl, hchain2.1, hchain2.2⟩
    · intro x hx
      rcases List.mem_append.mp hx with hx | hx
      · exact hts x (hmemold x (Or.inl hx))
      · rcases List.mem_cons.mp hx with hx | hx
        · subst hx; exact ⟨rfl, rfl⟩
        · exact hts x (hmemold x (Or.inr hx))
    · intro x hx
      rcases List.mem_append.mp hx with hx | hx
      · exact hszk x (hmemold x (Or.inl hx))
      · rcases List.mem_cons.mp hx with hx | hx
        · subst hx; exact hszk b hb
        · exact hszk x (hmemold x (Or.inr hx))
    · unfold bidsNodup
      have : (l ++ (⟨b.bid, b.hsize, false, b.hsize, false⟩ : Blk) :: r).map Blk.bid =
          (l ++ b :: r).map Blk.bid := by
        simp only [List.map_append, List.map_cons]
      rw [this, ← hdec]
      exact hbn
    · intro x hx
      rcases List.mem_append.mp hx with hx | hx
      · exact hib x (hmemold x (Or.inl hx))
      · rcases List.mem_cons.mp hx with hx | hx
        · subst hx; exact hib b hb
        · exact hib x (hmemold x (Or.inr hx))
    · intro j hj y hy
      obtain ⟨b2, hb2mem, hb2bid, hb2free, hb2cls⟩ := hsound j hj y hy
      have hb2ne : b2 ≠ b := by
        intro he
        rw [he, hba] at hb2free
        exact absurd hb2free (by simp)
      refine ⟨b2, ?_, hb2bid, hb2free, hb2cls⟩
      rw [hdec] at hb2mem
      rcases List.mem_append.mp hb2mem with hx | hx
      · exact List.mem_append.mpr (Or.inl hx)
      · rcases List.mem_cons.mp hx with hx | hx
        · exact absurd hx hb2ne
        · exact List.mem_append.mpr (Or.inr (List.mem_cons.mpr (Or.inr hx)))
    · intro x hx hxfree hxne
      rcases List.mem_append.mp hx with hx | hx
      · exact hcomp x (hmemold x (Or.inl hx)) hxfree
      · rcases List.mem_cons.mp hx with hx | hx
        · exact absurd (by rw [hx]) hxne
        · exact hcomp x (hmemold x (Or.inr hx)) hxfree
  exact (add_free_list_ok _ b.bid hp).1

theorem fresh_not_in_flatten (h : Heap) (hlen : h.seg.length = LIST_NUM)
    (hsound : segSound h) (hib : idsBound h) {y : Nat} (hy : h.nextId ≤ y) :
    y ∉ h.seg.flatten := by
  intro hc
  obtain ⟨j, hjlen, hjmem⟩ := exists_getD_of_mem_flatten y h.seg hc
  rw [hlen] at hjlen
  obtain ⟨b2, hb2mem, hb2bid, _, _⟩ := hsound j hjlen y hjmem
  have := hib b2 hb2mem
  omega

theorem place_ok (h : Heap) {b : Blk} (hwf : WF h) (hb : b ∈ h.blocks)
    (hbfree : b.halloc = false) (asize : Nat) (hale : asize ≤ b.hsize)
    (ha24 : MIN_BLOCK_SIZE ≤ asize) (ha8 : asize % 8 = 0) :
    WF (place h b.bid asize) ∧
    (∀ x ∈ h.blocks, x.halloc = true → x ∈ (place h b.bid asize).blocks) := by
  obtain ⟨hlen, hts, hszk, hchain, hbn, hib, hnd, hsound, hsc⟩ := hwf
  obtain ⟨l, r, hdec, hlb, hrb⟩ := mem_decomp h hb hbn
  have hszb : sizeOfId h b.bid = b.hsize := sizeOfId_middle h hdec hlb
  have hlisted : b.bid ∈ segGet h (get_seglist_no b.hsize) := hsc b hb hbfree
  have hdel := delete_mem_iff h hb hlen hnd hbn hlisted
  have hszkb := hszk b hb
  have hchain2 : List.Chain' (fun a c => a.halloc = true ∨ c.halloc = true) l ∧
      List.Chain' (fun a c => a.halloc = true ∨ c.halloc = true) r := by
    unfold noAdjacentFree at hchain
    rw [hdec, List.chain'_append, List.chain'_cons'] at hchain
    exact ⟨hchain.1, hchain.2.1.2⟩
  have hmemold : ∀ x : Blk, x ∈ l ∨ x ∈ r → x ∈ h.blocks := by
    intro x hx
    rw [hdec]
    rcases hx with hx | hx
    · exact List.mem_append.mpr (Or.inl hx)
    · exact List.mem_append.mpr (Or.inr (List.mem_cons.mpr (Or.inr hx)))
  have hnodup0 : (List.map Blk.bid l ++ b.bid :: List.map Blk.bid r).Nodup := by
    have : (h.blocks.map Blk.bid).Nodup := hbn
    rw [hdec, List.map_append, List.map_cons] at this
    exact this
  have hsound2 : ∀ j, j < LIST_NUM → ∀ y, y ∈ segGet (delete_free_list h b.bid) j →
      ∃ b3, (b3 ∈ l ∨ b3 ∈ r) ∧ b3.bid = y ∧ b3.halloc = false ∧
        get_seglist_no b3.hsize = j := by
    intro j hj y hy
    obtain ⟨hyh, hyne⟩ := (hdel j hj y).mp hy
    obtain ⟨b3, hb3mem, hb3bid, hb3free, hb3cls⟩ := hsound j hj y hyh
    have hb3ne : b3 ≠ b := fun he => hyne (by rw [← hb3bid, he])
    refine ⟨b3, ?_, hb3bid, hb3free, hb3cls⟩
    rw [hdec] at hb3mem
    rcases List.mem_append.mp hb3mem with hx | hx
    · exact Or.inl hx
    · rcases List.mem_cons.mp hx with hx | hx
      · exact absurd hx hb3ne
      · exact Or.inr hx
  unfold place
  rw [hszb]
  by_cases hcond : MIN_BLOCK_SIZE ≤ b.hsize - asize
  · rw [if_pos hcond]
    dsimp only
    rw [delete_free_list_blocks, delete_free_list_nextId, hdec,
      splitBlk_middle b.bid _ _ b r l hlb rfl]
    have hp2 : PreAdd { delete_free_list h b.bid with
        blocks := l ++ (⟨b.bid, asize, true, asize, true⟩ : Blk) ::
          (⟨h.nextId, b.hsize - asize, false, b.hsize - asize, false⟩ : Blk) :: r,
        nextId := h.nextId + 1 } h.nextId := by
      refine ⟨by rw [delete_seg_length]; exact hlen, ?_, ?_, ?_, ?_,
        delete_segNodup h b.bid hnd, ?_, ?_, ?_,
        l ++ [⟨b.bid, asize, true, asize, true⟩],
        ⟨h.nextId, b.hsize - asize, false, b.hsize - asize, false⟩, r,
        by simp, rfl, rfl, ?_, hchain2.2⟩
      · intro x hx
        rcases List.mem_append.mp hx with hx | hx
        · exact hts x (hmemold x (Or.inl hx))
        · rcases List.mem_cons.mp hx with hx | hx
          · subst hx; exact ⟨rfl, rfl⟩
          · rcases List.mem_cons.mp hx with hx | hx
            · subst hx; exact ⟨rfl, rfl⟩
            · exact hts x (hmemold x (Or.inr hx))
      · intro x hx
        rcases List.mem_append.mp hx with hx | hx
        · exact hszk x (hmemold x (Or.inl hx))
        · rcases List.mem_cons.mp hx with hx | hx
          · subst hx; exact ⟨ha24, ha8⟩
          · rcases List.mem_cons.mp hx with hx | hx
            · subst hx
              refine ⟨hcond, ?_⟩
              show (b.hsize - asize) % 8 = 0
              have h8 := hszkb.2
              omega
            · exact hszk x (hmemold x (Or.inr hx))
      · unfold bidsNodup
        have e1 : ((l ++ (⟨b.bid, asize, true, asize, true⟩ : Blk) ::
            (⟨h.nextId, b.hsize - asize, false, b.hsize - asize, false⟩ : Blk) :: r).map
              Blk.bid) =
            (List.map Blk.bid l ++ [b.bid]) ++ h.nextId :: List.map Blk.bid r := by
          simp
        rw [e1, List.nodup_middle, List.nodup_cons]
        constructor
        · intro hc
          have hc2 : h.nextId ∈ List.map Blk.bid l ++ b.bid :: List.map Blk.bid r := by
            rcases List.mem_append.mp hc with hx | hx
            · rcases List.mem_append.mp hx with hx | hx
              · exact List.mem_append.mpr (Or.inl hx)
              · exact List.mem_append.mpr (Or.inr (List.mem_cons.mpr
                  (Or.inl (by simpa using hx))))
            · exact List.mem_append.mpr (Or.inr (List.mem_cons.mpr (Or.inr hx)))
          have hc3 : h.nextId ∈ h.blocks.map Blk.bid := by
            rw [hdec, List.map_append, List.map_cons]
            exact hc2
          obtain ⟨x, hx, hxe⟩ := List.mem_map.mp hc3
          have := hib x hx
          omega
        · have e2 : (List.map Blk.bid l ++ [b.bid]) ++ List.map Blk.bid r =
              List.map Blk.bid l ++ b.bid :: List.map Blk.bid r := by simp
          rw [e2]
          exact hnodup0
      · intro x hx
        show x.bid < h.nextId + 1
        rcases List.mem_append.mp hx with hx | hx
        · have := hib x (hmemold x (Or.inl hx)); omega
        · rcases List.mem_cons.mp hx with hx | hx
          · subst hx
            show b.bid < h.nextId + 1
            have := hib b hb
            omega
          · rcases List.mem_cons.mp hx with hx | hx
            · subst hx
              show h.nextId < h.nextId + 1
              omega
            · have := hib x (hmemold x (Or.inr hx)); omega
      · intro j hj y hy
        obtain ⟨b3, hb3mem, hb3bid, hb3free, hb3cls⟩ := hsound2 j hj y hy
        refine ⟨b3, ?_, hb3bid, hb3free, hb3cls⟩
        rcases hb3mem with hx | hx
        · exact List.mem_append.mpr (Or.inl hx)
        · exact List.mem_append.mpr (Or.inr (List.mem_cons.mpr (Or.inr
            (List.mem_cons.mpr (Or.inr hx)))))
      · intro x hx hxfree hxne
        rcases List.mem_append.mp hx with hx | hx
        · have hxbne : x.bid ≠ b.bid := hlb x hx
          exact (hdel _ (get_seglist_no_lt _) x.bid).mpr
            ⟨hsc x (hmemold x (Or.inl hx)) hxfree, hxbne⟩
        · rcases List.mem_cons.mp hx with hx | hx
          · rw [hx] at hxfree
            exact absurd hxfree (by simp)
          · rcases List.mem_cons.mp hx with hx | hx
            · exact absurd (by rw [hx]) hxne
            · have hxbne : x.bid ≠ b.bid := hrb x hx
              exact (hdel _ (get_seglist_no_lt _) x.bid).mpr
                ⟨hsc x (hmemold x (Or.inr hx)) hxfree, hxbne⟩
      · intro hc
        obtain ⟨j, hjlen, hjmem⟩ := exists_getD_of_mem_flatten h.nextId _ hc
        rw [delete_seg_length, hlen] at hjlen
        have := (hdel j hjlen h.nextId).mp hjmem
        exact fresh_not_in_flatten h hlen hsound hib (le_refl _)
          (mem_getD_flatten _ h.seg j this.1)
      · rw [List.chain'_append]
        refine ⟨hchain2.1, List.chain'_singleton _, ?_⟩
        intro x hx y hy
        simp only [List.head?_cons, Option.mem_some_iff] at hy
        subst hy
        exact Or.inr rfl
    have hres := add_free_list_ok _ h.nextId hp2
    refine ⟨hres.1, ?_⟩
    intro x hx hxa
    have hxne : x ≠ b := fun he => by rw [he, hbfree] at hxa; exact absurd hxa (by simp)
    have hx2 : x ∈ l ∨ x ∈ r := by
      rcases List.mem_append.mp hx with hx | hx
      · exact Or.inl hx
      · rcases List.mem_cons.mp hx with hx | hx
        · exact absurd hx hxne
        · exact Or.inr hx
    refine hres.2.2.1 x ?_ hxa
    rcases hx2 with hx2 | hx2
    · exact List.mem_append.mpr (Or.inl hx2)
    · exact List.mem_append.mpr (Or.inr (List.mem_cons.mpr (Or.inr
        (List.mem_cons.mpr (Or.inr hx2)))))
  · rw [if_neg hcond]
    dsimp only
    rw [delete_free_list_blocks, hdec, setBlk_middle b.bid _ b r l hlb rfl]
    have hmem2 : ∀ x : Blk, x ∈ l ∨ x ∈ r →
        x ∈ l ++ (⟨b.bid, b.hsize, true, b.hsize, true⟩ : Blk) :: r := by
      intro x hx
      rcases hx with hx | hx
      · exact List.mem_append.mpr (Or.inl hx)
      · exact List.mem_append.mpr (Or.inr (List.mem_cons.mpr (Or.inr hx)))
    constructor
    · refine ⟨by rw [delete_seg_length]; exact hlen, ?_, ?_, ?_, ?_, ?_,
        delete_segNodup h b.bid hnd, ?_, ?_⟩
      · intro x hx
        rcases List.mem_append.mp hx with hx | hx
        · exact hts x (hmemold x (Or.inl hx))
        · rcases List.mem_cons.mp hx with hx | hx
          · subst hx; exact ⟨rfl, rfl⟩
          · exact hts x (hmemold x (Or.inr hx))
      · intro x hx
        rcases List.mem_append.mp hx with hx | hx
        · exact hszk x (hmemold x (Or.inl hx))
        · rcases List.mem_cons.mp hx with hx | hx
          · subst hx; exact hszkb
          · exact hszk x (hmemold x (Or.inr hx))
      · unfold noAdjacentFree
        rw [List.chain'_append, List.chain'_cons']
        refine ⟨hchain2.1, ⟨fun y hy => Or.inl rfl, hchain2.2⟩, ?_⟩
        intro x hx y hy
        simp only [List.head?_cons, Option.mem_some_iff] at hy
        subst hy
        exact Or.inr rfl
      · unfold bidsNodup
        have e1 : ((l ++ (⟨b.bid, b.hsize, true, b.hsize, true⟩ : Blk) :: r).map Blk.bid) =
            List.map Blk.bid l ++ b.bid :: List.map Blk.bid r := by simp
        rw [e1]
        exact hnodup0
      · intro x hx
        rcases List.mem_append.mp hx with hx | hx
        · exact hib x (hmemold x (Or.inl hx))
        · rcases List.mem_cons.mp hx with hx | hx
          · subst hx; exact hib b hb
          · exact hib x (hmemold x (Or.inr hx))
      · intro j hj y hy
        obtain ⟨b3, hb3mem, hb3bid, hb3free, hb3cls⟩ := hsound2 j hj y hy
        exact ⟨b3, hmem2 b3 hb3mem, hb3bid, hb3free, hb3cls⟩
      · intro x hx hxfree
        show x.bid ∈ segGet (delete_free_list h b.bid) (get_seglist_no x.hsize)
        rcases List.mem_append.mp hx with hx | hx
        · exact (hdel _ (get_seglist_no_lt _) x.bid).mpr
            ⟨hsc x (hmemold x (Or.inl hx)) hxfree, hlb x hx⟩
        · rcases List.mem_cons.mp hx with hx | hx
          · rw [hx] at hxfree
            exact absurd hxfree (by simp)
          · exact (hdel _ (get_seglist_no_lt _) x.bid).mpr
              ⟨hsc x (hmemold x (Or.inr hx)) hxfree, hrb x hx⟩
    · intro x hx hxa
      have hxne : x ≠ b := fun he => by rw [he, hbfree] at hxa; exact absurd hxa (by simp)
      have hx2 : x ∈ l ∨ x ∈ r := by
        rcases List.mem_append.mp hx with hx | hx
        · exact Or.inl hx
        · rcases List.mem_cons.mp hx with hx | hx
          · exact absurd hx hxne
          · exact Or.inr hx
      exact hmem2 x hx2

theorem extend_ok (h : Heap) (words : Nat) (hwf : WF h) (hw : 6 ≤ words) :
    WF (extend_heap h words true).2 ∧
    (∀ x ∈ h.blocks, x.halloc = true → x ∈ (extend_heap h words true).2.blocks) ∧
    (∃ id2, (extend_heap h words true).1 = some id2 ∧
      ∃ m ∈ (extend_heap h words true).2.blocks, m.bid = id2 ∧ m.halloc = false ∧
        (if words % 2 = 1 then words + 1 else words) * WSIZE ≤ m.hsize) := by
  obtain ⟨hlen, hts, hszk, hchain, hbn, hib, hnd, hsound, hsc⟩ := hwf
  set sz := (if words % 2 = 1 then words + 1 else words) * WSIZE with hszdef
  set nb : Blk := ⟨h.nextId, sz, false, sz, false⟩ with hnbdef
  set h1 : Heap := { h with blocks := h.blocks ++ [nb], nextId := h.nextId + 1 } with h1def
  have hceq : extend_heap h words true = (some (add_free_list h1 nb.bid).2,
      (add_free_list h1 nb.bid).1) := by
    unfold extend_heap
    rw [if_pos rfl]
  have hsz24 : MIN_BLOCK_SIZE ≤ sz := by
    rw [hszdef]
    unfold MIN_BLOCK_SIZE WSIZE
    split <;> omega
  have hsz8 : sz % 8 = 0 := by
    rw [hszdef]
    unfold WSIZE
    split
    · rename_i hodd
      omega
    · rename_i heven
      omega
  have hmem1 : ∀ x : Blk, x ∈ h.blocks → x ∈ h1.blocks := by
    intro x hx
    rw [h1def]
    exact List.mem_append.mpr (Or.inl hx)
  have hp : PreAdd h1 nb.bid := by
    refine ⟨hlen, ?_, ?_, ?_, ?_, hnd, ?_, ?_, ?_, h.blocks, nb, [],
      by rw [h1def], rfl, rfl, hchain, List.chain'_nil⟩
    · intro x hx
      rcases List.mem_append.mp hx with hx | hx
      · exact hts x hx
      · rcases List.mem_cons.mp hx with hx | hx
        · subst hx; exact ⟨rfl, rfl⟩
        · simp at hx
    · intro x hx
      rcases List.mem_append.mp hx with hx | hx
      · exact hszk x hx
      · rcases List.mem_cons.mp hx with hx | hx
        · subst hx; exact ⟨hsz24, hsz8⟩
        · simp at hx
    · unfold bidsNodup
      show ((h.blocks ++ [nb]).map Blk.bid).Nodup
      rw [List.map_append, List.nodup_append]
      refine ⟨hbn, by simp, ?_⟩
      intro y hy hy2
      simp only [List.map_cons, List.map_nil, List.mem_cons, List.not_mem_nil,
        or_false] at hy2
      obtain ⟨x, hx, hxe⟩ := List.mem_map.mp hy
      have := hib x hx
      rw [hy2] at hxe
      omega
    · intro x hx
      show x.bid < h.nextId + 1
      rcases List.mem_append.mp hx with hx | hx
      · have := hib x hx; omega
      · rcases List.mem_cons.mp hx with hx | hx
        · subst hx
          show h.nextId < h.nextId + 1
          omega
        · simp at hx
    · intro j hj y hy
      obtain ⟨b2, hb2mem, hb2bid, hb2free, hb2cls⟩ := hsound j hj y hy
      exact ⟨b2, hmem1 b2 hb2mem, hb2bid, hb2free, hb2cls⟩
    · intro x hx hxfree hxne
      rcases List.mem_append.mp hx with hx | hx
      · exact hsc x hx hxfree
      · rcases List.mem_cons.mp hx with hx | hx
        · exact absurd (by rw [hx]) hxne
        · simp at hx
    · exact fresh_not_in_flatten h hlen hsound hib (le_refl _)
  have hres := add_free_list_ok h1 nb.bid hp
  have hsznb : sizeOfId h1 nb.bid = sz := by
    have hnbmem : nb ∈ h1.blocks := by
      rw [h1def]
      exact List.mem_append.mpr (Or.inr (by simp))
    have hbn1 : bidsNodup h1 := hp.2.2.2.1
    rw [sizeOfId_of_mem h1 hbn1 hnbmem]
  rw [hceq]
  refine ⟨hres.1, ?_, (add_free_list h1 nb.bid).2, rfl, ?_⟩
  · intro x hx hxa
    exact hres.2.2.1 x (hmem1 x hx) hxa
  · obtain ⟨m, hmmem, hmbid, hmfree, hmsz⟩ := hres.2.2.2
    rw [hsznb] at hmsz
    exact ⟨m, hmmem, hmbid, hmfree, hmsz⟩

theorem find_fit_list_sound (h : Heap) (asize : Nat) :
    ∀ lst : List Nat, ∀ bp : Nat, find_fit_list h asize lst = some bp →
      bp ∈ lst ∧ asize ≤ sizeOfId h bp
  | [], bp, hf => by simp [find_fit_list] at hf
  | id :: rest, bp, hf => by
    unfold find_fit_list at hf
    by_cases h0 : 0 < sizeOfId h id
    · rw [if_pos h0] at hf
      by_cases hfit : asize ≤ sizeOfId h id
      · rw [if_pos hfit] at hf
        cases hf
        exact ⟨by simp, hfit⟩
      · rw [if_neg hfit] at hf
        obtain ⟨hmem, hsz⟩ := find_fit_list_sound h asize rest bp hf
        exact ⟨by simp [hmem], hsz⟩
    · rw [if_neg h0] at hf
      exact absurd hf (by simp)

theorem find_fit_from_sound (h : Heap) (asize : Nat) :
    ∀ (fuel i bp : Nat), find_fit_from h asize i fuel = some bp →
      ∃ j, i ≤ j ∧ j < i + fuel ∧ bp ∈ segGet h j ∧ asize ≤ sizeOfId h bp
  | 0, i, bp, hf => by simp [find_fit_from] at hf
  | fuel + 1, i, bp, hf => by
    unfold find_fit_from at hf
    cases hl : find_fit_list h asize (segGet h i) with
    | some id =>
      rw [hl] at hf
      cases hf
      obtain ⟨hmem, hsz⟩ := find_fit_list_sound h asize _ _ hl
      exact ⟨i, le_refl _, by omega, hmem, hsz⟩
    | none =>
      rw [hl] at hf
      obtain ⟨j, hij, hjlt, hmem, hsz⟩ := find_fit_from_sound h asize fuel (i + 1) bp hf
      exact ⟨j, by omega, by omega, hmem, hsz⟩

theorem find_fit_sound (h : Heap) (hwf : WF h) (asize : Nat) {bp : Nat}
    (hf : find_fit h asize = some bp) :
    ∃ b ∈ h.blocks, b.bid = bp ∧ b.halloc = false ∧ asize ≤ b.hsize := by
  obtain ⟨hlen, hts, hszk, hchain, hbn, hib, hnd, hsound, hsc⟩ := hwf
  unfold find_fit at hf
  obtain ⟨j, hij, hjlt, hmem, hsz⟩ := find_fit_from_sound h asize _ _ bp hf
  have hcl := get_seglist_no_lt asize
  have hj19 : j < LIST_NUM := by unfold LIST_NUM at *; omega
  obtain ⟨b, hbmem, hbbid, hbfree, _⟩ := hsound j hj19 bp hmem
  refine ⟨b, hbmem, hbbid, hbfree, ?_⟩
  have : sizeOfId h bp = b.hsize := by
    rw [← hbbid]
    exact sizeOfId_of_mem h hbn hbmem
  omega

theorem extend_heap_fail (h : Heap) (words : Nat) :
    extend_heap h words false = (none, h) := by
  unfold extend_heap
  rw [if_neg (by simp)]

theorem malloc_ok (h : Heap) (n : Nat) (g : Bool) (hwf : WF h) :
    WF (malloc h n g).2 ∧
    (∀ x ∈ h.blocks, x.halloc = true → x ∈ (malloc h n g).2.blocks) ∧
    ((malloc h n g).1 = none → (malloc h n g).2 = h) := by
  by_cases hn : n = 0
  · have : malloc h n g = (none, h) := by unfold malloc; rw [if_pos hn]
    rw [this]
    exact ⟨hwf, fun x hx _ => hx, fun _ => rfl⟩
  · have ha24 := adjustSize_ge n
    have ha8 := adjustSize_mod n
    cases hff : find_fit h (adjustSize n) with
    | some bp =>
      have hm : malloc h n g = (some bp, place h bp (adjustSize n)) := by
        unfold malloc
        rw [if_neg hn]
        dsimp only
        rw [hff]
      rw [hm]
      obtain ⟨b, hbmem, hbbid, hbfree, hble⟩ := find_fit_sound h hwf (adjustSize n) hff
      have hpl := place_ok h hwf hbmem hbfree (adjustSize n) hble ha24 ha8
      rw [hbbid] at hpl
      exact ⟨hpl.1, hpl.2, fun hc => by simp at hc⟩
    | none =>
      cases g with
      | false =>
        have hm : malloc h n false = (none, h) := by
          unfold malloc
          rw [if_neg hn]
          dsimp only
          rw [hff, extend_heap_fail]
        rw [hm]
        exact ⟨hwf, fun x hx _ => hx, fun _ => rfl⟩
      | true =>
        set asize := adjustSize n with hadef
        set extendsize := max asize CHUNKSIZE with hedef
        have hw6 : 6 ≤ extendsize / WSIZE := by
          rw [hedef]
          unfold WSIZE CHUNKSIZE
          omega
        have hext := extend_ok h (extendsize / WSIZE) hwf hw6
        obtain ⟨hwf2, hpers2, id2, hid2, m, hmmem, hmbid, hmfree, hmsz⟩ := hext
        have hm : malloc h n true =
            (some id2, place (extend_heap h (extendsize / WSIZE) true).2 id2 asize) := by
          unfold malloc
          rw [if_neg hn]
          dsimp only
          rw [hff, ← hadef, ← hedef]
          rcases hE : extend_heap h (extendsize / WSIZE) true with ⟨p2, h2⟩
          rw [hE] at hid2
          dsimp only at hid2 ⊢
          rw [hid2]
        rw [hm]
        have hale : asize ≤ m.hsize := by
          have h4 : extendsize % 4 = 0 := by
            rw [hedef, hadef]
            have := adjustSize_mod n
            unfold CHUNKSIZE
            rcases Nat.le_total (adjustSize n) 200 with hc | hc
            · rw [Nat.max_eq_right hc]
            · rw [Nat.max_eq_left hc]; omega
          have hle1 : asize ≤ extendsize := by rw [hedef]; exact le_max_left _ _
          have hle2 : extendsize ≤ (if extendsize / WSIZE % 2 = 1
              then extendsize / WSIZE + 1 else extendsize / WSIZE) * WSIZE := by
            unfold WSIZE
            split <;> omega
          omega
        have hpl := place_ok (extend_heap h (extendsize / WSIZE) true).2 hwf2 hmmem
          hmfree asize hale ha24 ha8
        rw [hmbid] at hpl
        refine ⟨hpl.1, ?_, fun hc => by simp at hc⟩
        intro x hx hxa
        exact hpl.2 x (hpers2 x hx hxa) hxa

theorem free_none (h : Heap) : free h none = h := rfl

theorem free_ok (h : Heap) (p : Option Nat) (hwf : WF h) (hv : validPtr h p) :
    WF (free h p) := by
  rcases hv with rfl | ⟨b, hb, hbp, hba⟩
  · rw [free_none]; exact hwf
  · rw [← hbp]
    exact free_wf h hwf hb hba

theorem realloc_ok (h : Heap) (p : Option Nat) (n : Nat) (g : Bool)
    (hwf : WF h) (hv : validPtr h p) :
    WF (realloc h p n g).2.2 := by
  by_cases hn : n = 0
  · have : realloc h p n g = (none, 0, free h p) := by
      unfold realloc
      rw [if_pos hn]
    rw [this]
    exact free_ok h p hwf hv
  · rcases hv with rfl | ⟨b, hb, hbp, hba⟩
    · have : realloc h none n g = ((malloc h n g).1, 0, (malloc h n g).2) := by
        unfold realloc
        rw [if_neg hn]
      rw [this]
      exact (malloc_ok h n g hwf).1
    · obtain ⟨old, rfl⟩ : ∃ old, p = some old := ⟨b.bid, hbp.symm⟩
      have hold : old = b.bid := by injection hbp.symm
      subst hold
      have hmw := malloc_ok h n g hwf
      cases hm1 : (malloc h n g).1 with
      | none =>
        have : realloc h (some b.bid) n g = (none, 0, (malloc h n g).2) := by
          unfold realloc
          rw [if_neg hn]
          dsimp only
          rw [hm1]
        rw [this]
        exact hmw.1
      | some newp =>
        have : realloc h (some b.bid) n g = (some newp,
            min (sizeOfId (malloc h n g).2 b.bid) n,
            free (malloc h n g).2 (some b.bid)) := by
          unfold realloc
          rw [if_neg hn]
          dsimp only
          rw [hm1]
        rw [this]
        exact free_wf (malloc h n g).2 hmw.1 (hmw.2.1 b hb hba) hba

theorem calloc_heap (h : Heap) (c n : Nat) (g : Bool) :
    (calloc h c n g).2.2 = (malloc h (c * n % SIZE_T_MOD) g).2 := rfl

theorem calloc_ok (h : Heap) (c n : Nat) (g : Bool) (hwf : WF h) :
    WF (calloc h c n g).2.2 := by
  rw [calloc_heap]
  exact (malloc_ok h _ g hwf).1

theorem wf_mm_init : WF mm_init := by decide

/-- Every heap state reachable through the public allocator operations
satisfies the structural invariant `WF`. -/
theorem reach_wf (h : Heap) (hr : Reach h) : WF h := by
  induction hr with
  | init => exact wf_mm_init
  | malloc_step h n g _ ih => exact (malloc_ok h n g ih).1
  | free_step h p _ hv ih => exact free_ok h p ih hv
  | realloc_step h p n g _ hv ih => exact realloc_ok h p n g ih hv
  | calloc_step h c n g _ ih => exact calloc_ok h c n g ih

theorem find_fit_list_eq (h : Heap) (asize : Nat) :
    ∀ lst : List Nat, (∀ id ∈ lst, 0 < sizeOfId h id) →
      find_fit_list h asize lst = lst.find? (fun id => asize ≤ sizeOfId h id)
  | [], _ => rfl
  | id :: rest, hpos => by
    unfold find_fit_list
    rw [if_pos (hpos id (by simp)), List.find?_cons]
    by_cases hfit : asize ≤ sizeOfId h id
    · rw [if_pos hfit]
      simp [hfit]
    · rw [if_neg hfit]
      have ih := find_fit_list_eq h asize rest (fun x hx => hpos x (by simp [hx]))
      simp [hfit, ih]

theorem find_fit_from_eq (h : Heap) (asize : Nat)
    (hpos : ∀ j, ∀ id ∈ segGet h j, 0 < sizeOfId h id) :
    ∀ (fuel i : Nat),
      find_fit_from h asize i fuel =
        (((List.range fuel).map (fun k => segGet h (i + k))).flatten).find?
          (fun id => asize ≤ sizeOfId h id)
  | 0, i => rfl
  | fuel + 1, i => by
    unfold find_fit_from
    rw [find_fit_list_eq h asize _ (fun id hid => hpos i id hid)]
    rw [List.range_succ_eq_map, List.map_cons, List.map_map, List.flatten_cons,
      List.find?_append]
    have hmapeq : (List.map ((fun k => segGet h (i + k)) ∘ Nat.succ) (List.range fuel)) =
        (List.map (fun k => segGet h (i + 1 + k)) (List.range fuel)) := by
      apply List.map_congr_left
      intro k _
      show segGet h (i + (k + 1)) = segGet h (i + 1 + k)
      rw [show i + (k + 1) = i + 1 + k by omega]
    rw [hmapeq, ← find_fit_from_eq h asize hpos fuel (i + 1)]
    simp only [Nat.add_zero]
    cases hfind : (segGet h i).find? (fun id => asize ≤ sizeOfId h id) with
    | some id => rfl
    | none => rfl

theorem wf_seg_sizes_pos (h : Heap) (hwf : WF h) :
    ∀ j, ∀ id ∈ segGet h j, 0 < sizeOfId h id := by
  obtain ⟨hlen, hts, hszk, hchain, hbn, hib, hnd, hsound, hsc⟩ := hwf
  intro j id hid
  by_cases hj : j < LIST_NUM
  · obtain ⟨b, hb, hbid, _, _⟩ := hsound j hj id hid
    have h24 := (hszk b hb).1
    have he : sizeOfId h id = b.hsize := by
      rw [← hbid]; exact sizeOfId_of_mem h hbn hb
    unfold MIN_BLOCK_SIZE at h24
    omega
  · unfold segGet at hid
    rw [List.getD_eq_default _ _ (by rw [hlen]; omega)] at hid
    simp at hid

/-- Claim C1, amended: for an adjusted request `asize`, `find_fit` scans the
size classes from `get_seglist_no asize` upward and, within each class,
scans the free list from its head — i.e. in LIFO (reverse-insertion) order,
most recently inserted block first — returning the first block whose size
is at least `asize`, and `NULL` exactly when no list up to class 18 holds a
fitting block.  This equals the single flat first-fit scan `specFindFit`
over the concatenation of the lists of classes `get_seglist_no asize ..
18` in increasing class order. -/
theorem claim_C1_find_fit_scan_order (h : Heap) (hwf : WF h) (asize : Nat) :
    find_fit h asize = specFindFit h asize ∧
    (find_fit h asize = none ↔
      ∀ id ∈ ((List.range (LIST_NUM - get_seglist_no asize)).map
        (fun k => segGet h (get_seglist_no asize + k))).flatten,
        ¬ asize ≤ sizeOfId h id) := by
  have hfirst : find_fit h asize = specFindFit h asize := by
    unfold find_fit specFindFit
    exact find_fit_from_eq h asize (wf_seg_sizes_pos h hwf) _ _
  refine ⟨hfirst, ?_⟩
  rw [hfirst]
  unfold specFindFit
  rw [List.find?_eq_none]
  simp

/-- Claim C1, counterexample to scanning "in insertion order": in the heap
obtained by freeing block 0 first and block 2 second (both 24-byte blocks
of the same size class, both fitting a request of 24), the class-0 list is
`[2, 0]` — the LIFO push puts the most recent free at the head — and
`find_fit` returns block 2, not the first-inserted block 0. -/
theorem claim_C1_counterexample :
    find_fit (free (free hAlloc4 (some 0)) (some 2)) 24 = some 2 ∧
    (2 : Nat) ≠ 0 ∧
    24 ≤ sizeOfId (free (free hAlloc4 (some 0)) (some 2)) 0 ∧
    segGet (free (free hAlloc4 (some 0)) (some 2)) 0 = [2, 0] := by decide

theorem claim_C1_witness :
    find_fit (free (free hAlloc4 (some 0)) (some 2)) 24 =
      specFindFit (free (free hAlloc4 (some 0)) (some 2)) 24 :=
  (claim_C1_find_fit_scan_order (free (free hAlloc4 (some 0)) (some 2))
    (by decide) 24).1

/-- Claim C2: after `free` on a valid pointer (null, or a currently
allocated block) of a well-formed heap, no two physically adjacent blocks
of the chain are both free: `free` coalesces with each free physical
neighbour before inserting into a free list. -/
theorem claim_C2_coalescing_completeness (h : Heap) (p : Option Nat)
    (hwf : WF h) (hv : validPtr h p) : noAdjacentFree (free h p) :=
  (free_ok h p hwf hv).2.2.2.1

theorem claim_C2_witness : noAdjacentFree (free hAlloc4 (some 1)) :=
  claim_C2_coalescing_completeness hAlloc4 (some 1) (by decide)
    (Or.inr ⟨⟨1, 24, true, 24, true⟩, by decide, rfl, rfl⟩)

/-- Claim C3: boundary-tag symmetry (every block's footer repeats its
header's size and allocation bit) holds in a well-formed heap and is
preserved by every operation: `malloc`, `free`, `realloc`, `calloc` and
`extend_heap`. -/
theorem claim_C3_boundary_tag_symmetry (h : Heap) (hwf : WF h) :
    tagSym h ∧ (∀ n g, tagSym (malloc h n g).2) ∧
    (∀ p, validPtr h p → tagSym (free h p)) ∧
    (∀ p n g, validPtr h p → tagSym (realloc h p n g).2.2) ∧
    (∀ c n g, tagSym (calloc h c n g).2.2) ∧
    (∀ w g, 6 ≤ w → tagSym (extend_heap h w g).2) := by
  refine ⟨hwf.2.1, ?_, ?_, ?_, ?_, ?_⟩
  · exact fun n g => ((malloc_ok h n g hwf).1).2.1
  · exact fun p hv => (free_ok h p hwf hv).2.1
  · exact fun p n g hv => (realloc_ok h p n g hwf hv).2.1
  · exact fun c n g => (calloc_ok h c n g hwf).2.1
  · intro w g hw
    cases g with
    | false => rw [extend_heap_fail]; exact hwf.2.1
    | true => exact ((extend_ok h w hwf hw).1).2.1

theorem claim_C3_witness :
    tagSym (malloc hAlloc4 40 true).2 ∧ tagSym (free hAlloc4 (some 2)) :=
  ⟨(claim_C3_boundary_tag_symmetry hAlloc4 (by decide)).2.1 40 true,
   (claim_C3_boundary_tag_symmetry hAlloc4 (by decide)).2.2.1 (some 2)
     (Or.inr ⟨⟨2, 24, true, 24, true⟩, by decide, rfl, rfl⟩)⟩

/-- Claim C4, amended: `calloc` computes `nmemb * size` as a wrapping
`size_t` product with no overflow check; when the product does not wrap it
allocates `nmemb * size` bytes and zero-fills exactly that many bytes
(there is no distinct Overflow failure anywhere in `calloc`). -/
theorem claim_C4_calloc_wrapped_product (h : Heap) (c n : Nat) (g : Bool)
    (hlt : c * n < SIZE_T_MOD) :
    calloc h c n g = ((malloc h (c * n) g).1, c * n, (malloc h (c * n) g).2) := by
  unfold calloc
  rw [Nat.mod_eq_of_lt hlt]

/-- Claim C4, counterexample: with `nmemb = 2^63` and `size = 2` the
product wraps to 0; `calloc` performs `malloc(0)` and a 0-byte `memset`,
returning the plain null result — not a distinct Overflow failure — and
zero-fills 0 bytes instead of `2^63 * 2`. -/
theorem claim_C4_counterexample :
    SIZE_T_MOD ≤ 2 ^ 63 * 2 ∧
    calloc mm_init (2 ^ 63) 2 true = (none, 0, mm_init) ∧
    (0 : Nat) ≠ 2 ^ 63 * 2 := by decide

theorem claim_C4_witness :
    3 * 8 < SIZE_T_MOD ∧
    calloc mm_init 3 8 true = ((malloc mm_init (3 * 8) true).1, 3 * 8,
      (malloc mm_init (3 * 8) true).2) :=
  ⟨by decide, claim_C4_calloc_wrapped_product mm_init 3 8 true (by decide)⟩

/-- Claim C5, amended: `realloc(p, n)` behaves as `malloc(n)`, then a copy
of `min(old_block_size, n)` bytes — where `old_block_size` is the size
stored in the old block's header, i.e. the payload size *plus* the 8 bytes
of header and footer, so up to 8 bytes beyond the old payload are copied —
then `free(p)`; `realloc(p, 0)` is `free(p)` returning null, and
`realloc(NULL, n)` is `malloc(n)`.  In a well-formed heap every block's
header size is its payload size plus `DSIZE`. -/
theorem claim_C5_realloc_semantics (h : Heap) (old n : Nat) (g : Bool) (p : Nat) :
    (realloc h none n g = ((malloc h n g).1, 0, (malloc h n g).2)) ∧
    (realloc h (some old) 0 g = (none, 0, free h (some old))) ∧
    (n ≠ 0 → (malloc h n g).1 = some p →
      realloc h (some old) n g =
        (some p, min (sizeOfId (malloc h n g).2 old) n,
          free (malloc h n g).2 (some old))) ∧
    (WF h → ∀ b ∈ h.blocks, sizeOfId h b.bid = payloadSizeOf h b.bid + DSIZE) := by
  refine ⟨?_, ?_, ?_, ?_⟩
  · by_cases hn : n = 0
    · subst hn
      have hm : malloc h 0 g = (none, h) := by unfold malloc; rw [if_pos rfl]
      unfold realloc
      rw [if_pos rfl, hm, free_none]
    · unfold realloc
      rw [if_neg hn]
  · unfold realloc
    rw [if_pos rfl]
  · intro hn hm
    unfold realloc
    rw [if_neg hn]
    dsimp only
    rw [hm]
  · intro hwf b hb
    have hsz : sizeOfId h b.bid = b.hsize := sizeOfId_of_mem h hwf.2.2.2.2.1 hb
    have h24 := (hwf.2.2.1 b hb).1
    unfold payloadSizeOf DSIZE
    unfold MIN_BLOCK_SIZE at h24
    rw [hsz]
    omega

/-- Claim C5, counterexample to copying `min(old_payload_size, n)` bytes:
with one allocated 24-byte block (payload capacity 16) and a resize
request of 20 bytes, the code copies `min(24, 20) = 20` bytes — the old
*block* size including the 8 boundary-tag bytes — not
`min(16, 20) = 16`. -/
theorem claim_C5_counterexample :
    (realloc hOneAlloc (some 0) 20 true).2.1 = 20 ∧
    payloadSizeOf hOneAlloc 0 = 16 ∧
    min (payloadSizeOf hOneAlloc 0) 20 ≠ 20 := by decide

theorem claim_C5_witness :
    (20 : Nat) ≠ 0 ∧ (malloc hOneAlloc 20 true).1 = some 1 ∧
    realloc hOneAlloc (some 0) 20 true =
      (some 1, min (sizeOfId (malloc hOneAlloc 20 true).2 0) 20,
        free (malloc hOneAlloc 20 true).2 (some 0)) :=
  ⟨by decide, by decide,
    (claim_C5_realloc_semantics hOneAlloc 0 20 true 1).2.2.1 (by decide) (by decide)⟩

/-- Claim C6: `malloc(0)` (on an initialized allocator) deterministically
returns the null result and leaves the whole heap state — chain, free
lists and id supply — unchanged; no zero-size live block is created. -/
theorem claim_C6_malloc_zero (h : Heap) (g : Bool) : malloc h 0 g = (none, h) := by
  unfold malloc
  rw [if_pos rfl]

/-- Claim C7: when no free block fits the adjusted size and `mem_sbrk`
declines to extend, `malloc` returns the null (out-of-memory) result and
the heap — every block, every free list, the id supply — is exactly the
heap before the call. -/
theorem claim_C7_oom_no_partial_state (h : Heap) (n : Nat) (hn : n ≠ 0)
    (hff : find_fit h (adjustSize n) = none) :
    malloc h n false = (none, h) := by
  unfold malloc
  rw [if_neg hn]
  dsimp only
  rw [hff, extend_heap_fail]

theorem claim_C7_witness : malloc hAlloc4 5 false = (none, hAlloc4) :=
  claim_C7_oom_no_partial_state hAlloc4 5 (by decide) (by decide)

/-- Claim C8: in every state reachable by the public operations, every
free block is a member of exactly the free list of index
`get_seglist_no(size)` for its *current* size (in particular a coalesced
block is filed under its merged size), and no allocated block is on any
free list. -/
theorem claim_C8_size_class_membership (h : Heap) (hr : Reach h) :
    ∀ b ∈ h.blocks,
      (b.halloc = false → b.bid ∈ segGet h (get_seglist_no b.hsize) ∧
        ∀ i, i < LIST_NUM → b.bid ∈ segGet h i → i = get_seglist_no b.hsize) ∧
      (b.halloc = true → ∀ i, i < LIST_NUM → b.bid ∉ segGet h i) := by
  obtain ⟨hlen, hts, hszk, hchain, hbn, hib, hnd, hsound, hsc⟩ := reach_wf h hr
  intro b hb
  constructor
  · intro hfree
    refine ⟨hsc b hb hfree, ?_⟩
    intro i hi hmem
    exact flatten_nodup_unique b.bid h.seg hnd i _ hmem (hsc b hb hfree)
  · intro halloc i hi hmem
    obtain ⟨b2, hb2, hb2bid, hb2free, _⟩ := hsound i hi b.bid hmem
    have he : b2 = b := bid_inj h hbn hb2 hb hb2bid
    rw [he, halloc] at hb2free
    exact absurd hb2free (by simp)

theorem claim_C8_witness :
    (0 : Nat) ∈ segGet mm_init (get_seglist_no 200) :=
  ((claim_C8_size_class_membership mm_init Reach.init
    ⟨0, 200, false, 200, false⟩ (by decide)).1 rfl).1

/-- Claim C9 (refuting termination): the inner free-list walk of
`check_free_list` never terminates once its loop condition holds, because
the loop's update expression `PUT_NEXTP(bp, GET_NEXTP(bp))` rewrites
`bp`'s next link to its own value and never advances `bp`: for every
fuel bound the walk is still running. -/
theorem claim_C9_check_free_list_diverges (h : Heap) (bp : Option Nat)
    (hc : cflCond h bp = true) : ∀ fuel, check_free_list_walk h bp fuel = none := by
  intro fuel
  induction fuel with
  | zero => rfl
  | succ k ih =>
    unfold check_free_list_walk
    rw [if_pos hc]
    exact ih

theorem claim_C9_witness :
    cflCond mm_init (some 0) = true ∧
    check_free_list_walk mm_init (some 0) 100 = none :=
  ⟨by decide, claim_C9_check_free_list_diverges mm_init (some 0) (by decide) 100⟩

/-- Claim C10: the size-to-class map never returns index 3 (sizes 41..56
map to index 4), so although 19 list heads are allocated, the segregated
list at index 3 is empty in every reachable heap state. -/
theorem claim_C10_class_three_unused :
    (∀ n, get_seglist_no n ≠ 3) ∧
    (∀ n, 41 ≤ n → n ≤ 56 → get_seglist_no n = 4) ∧
    (∀ h, Reach h → h.seg.length = LIST_NUM ∧ segGet h 3 = []) := by
  refine ⟨get_seglist_no_ne_three, get_seglist_no_of_41_56, ?_⟩
  intro h hr
  obtain ⟨hlen, _, _, _, _, _, _, hsound, _⟩ := reach_wf h hr
  refine ⟨hlen, ?_⟩
  rw [List.eq_nil_iff_forall_not_mem]
  intro id hid
  obtain ⟨b, _, _, _, hcls⟩ := hsound 3 (by unfold LIST_NUM; omega) id hid
  exact get_seglist_no_ne_three b.hsize hcls

theorem claim_C10_witness :
    get_seglist_no 48 ≠ 3 ∧ segGet mm_init 3 = [] :=
  ⟨claim_C10_class_three_unused.1 48,
   (claim_C10_class_three_unused.2.2 mm_init Reach.init).2⟩
